import Mathlib

/-!
Verification of the AKU success-stories scraper and uploader
(scraper.py, uploader.py, run.py) against its natural-language
specification.

Modelling conventions.  Python strings are Lean strings, manipulated as
lists of characters.  Regular-expression character classes and str.lower
are modelled on the ASCII range, which covers every literal the programs
compare against.  Network transports, the clock, the random generator and
the filesystem are explicit oracles or parameters; the HTML parser
(BeautifulSoup) is modelled as a tree of tagged nodes, so parsed
documents are quantified over directly.  Everything else is translated
line by line from the Python source.
-/

set_option linter.unusedVariables false

/-! ## ASCII character classes and Python string primitives -/

def asciiUpper (c : Char) : Bool := 65 ≤ c.toNat && c.toNat ≤ 90

def asciiLower (c : Char) : Bool := 97 ≤ c.toNat && c.toNat ≤ 122

def asciiAlpha (c : Char) : Bool := asciiUpper c || asciiLower c

def asciiDigit (c : Char) : Bool := 48 ≤ c.toNat && c.toNat ≤ 57

def asciiAlnum (c : Char) : Bool := asciiAlpha c || asciiDigit c

/-- Model of Python str.lower on one character, restricted to ASCII
(Python also lowers non-ASCII letters; none of the literals the programs
compare against contain such letters). -/
def pyLowerChar (c : Char) : Char :=
  if asciiUpper c then Char.ofNat (c.toNat + 32) else c

/-- Model of the Python whitespace class used by str.strip and the
regex class backslash-s (ASCII whitespace plus no-break space). -/
def pyWsChar (c : Char) : Bool :=
  c = ' ' || c = '\t' || c = '\n' || c = '\r' ||
  c = Char.ofNat 11 || c = Char.ofNat 12 || c = Char.ofNat 160

/-- Removal of trailing characters satisfying p, as in Python str.rstrip. -/
def rstripP (p : Char → Bool) : List Char → List Char
  | [] => []
  | c :: cs =>
    let r := rstripP p cs
    if r.isEmpty && p c then [] else c :: r

/-- Removal of leading and trailing characters satisfying p (str.strip). -/
def stripP (p : Char → Bool) (l : List Char) : List Char :=
  rstripP p (l.dropWhile p)

/-- Model of Python str.strip with no argument. -/
def pyStrip (l : List Char) : List Char := stripP pyWsChar l

def pyStripStr (s : String) : String := ⟨pyStrip s.data⟩

def pyLower (l : List Char) : List Char := l.map pyLowerChar

def pyLowerStr (s : String) : String := ⟨pyLower s.data⟩

/-- Model of Python str.startswith. -/
def listStartsWith : List Char → List Char → Bool
  | _, [] => true
  | [], _ :: _ => false
  | c :: cs, p :: ps => c = p && listStartsWith cs ps

def pyStartsWithStr (s pre : String) : Bool := listStartsWith s.data pre.data

/-- Model of the Python substring test (needle in hay). -/
def pyContains (hay needle : List Char) : Bool :=
  match hay with
  | [] => needle.isEmpty
  | _ :: t => listStartsWith hay needle || pyContains t needle

def pyContainsStr (hay needle : String) : Bool := pyContains hay.data needle.data

/-- Model of Python str.endswith for a single suffix. -/
def pyEndsWith (hay needle : List Char) : Bool :=
  listStartsWith hay.reverse needle.reverse

/-! ### Basic lemmas about the string primitives -/

theorem rstripP_cons_of_neg (p : Char → Bool) (c : Char) (cs : List Char)
    (hc : p c = false) : rstripP p (c :: cs) = c :: rstripP p cs := by
  simp [rstripP, hc]

theorem rstripP_ne_nil_of_head (p : Char → Bool) (c : Char) (cs : List Char)
    (hc : p c = false) : rstripP p (c :: cs) ≠ [] := by
  rw [rstripP_cons_of_neg p c cs hc]; simp

theorem mem_rstripP (p : Char → Bool) (l : List Char) :
    ∀ c ∈ rstripP p l, c ∈ l := by
  induction l with
  | nil => simp [rstripP]
  | cons a as ih =>
    intro c hc
    simp only [rstripP] at hc
    split at hc
    · simp at hc
    · rw [List.mem_cons] at hc
      rcases hc with h | h
      · simp [h]
      · exact List.mem_cons_of_mem a (ih c h)

theorem length_rstripP (p : Char → Bool) (l : List Char) :
    (rstripP p l).length ≤ l.length := by
  induction l with
  | nil => simp [rstripP]
  | cons a as ih =>
    simp only [rstripP]
    split
    · simp
    · simpa using ih

theorem getLast?_rstripP (p : Char → Bool) (l : List Char) :
    rstripP p l = [] ∨ ∃ c, (rstripP p l).getLast? = some c ∧ p c = false := by
  induction l with
  | nil => exact Or.inl rfl
  | cons a as ih =>
    simp only [rstripP]
    split
    · exact Or.inl rfl
    · rename_i hcond
      right
      rcases ih with hnil | ⟨c, hc, hpc⟩
      · refine ⟨a, ?_, ?_⟩
        · rw [hnil]; rfl
        · rw [hnil] at hcond
          simpa using hcond
      · refine ⟨c, ?_, hpc⟩
        rcases hr : rstripP p as with _ | ⟨b, bs⟩
        · rw [hr] at hc; simp at hc
        · rw [hr] at hc
          rw [List.getLast?_cons_cons, hc]

/-! ## read_links_file (scraper.py 306-325 / run.py 138-149)

The file contents are modelled as the list of lines produced by
splitlines; the existence check and the file read are external. -/

/-- First loop of read_links_file: strip each line, drop blank lines and
lines starting with the comment marker. -/
def collectLinkLines : List String → List String
  | [] => []
  | l :: ls =>
    let s := pyStripStr l
    if s = "" || pyStartsWithStr s "#" then collectLinkLines ls
    else s :: collectLinkLines ls

/-- Second loop of read_links_file: de-duplicate preserving first-seen
order, via the seen set. -/
def dedupeFirstSeen (seen : List String) : List String → List String
  | [] => []
  | u :: us =>
    if u ∈ seen then dedupeFirstSeen seen us
    else u :: dedupeFirstSeen (u :: seen) us

/-- Model of read_links_file on the list of lines of the file. -/
def read_links_file (lines : List String) : List String :=
  dedupeFirstSeen [] (collectLinkLines lines)

theorem mem_dedupeFirstSeen (seen : List String) (l : List String) (x : String) :
    x ∈ dedupeFirstSeen seen l ↔ x ∈ l ∧ x ∉ seen := by
  induction l generalizing seen with
  | nil => simp [dedupeFirstSeen]
  | cons u us ih =>
    simp only [dedupeFirstSeen]
    split
    · rename_i hu
      rw [ih]
      constructor
      · rintro ⟨hmem, hns⟩
        exact ⟨List.mem_cons_of_mem u hmem, hns⟩
      · rintro ⟨hmem, hns⟩
        rw [List.mem_cons] at hmem
        rcases hmem with rfl | hmem
        · exact absurd hu hns
        · exact ⟨hmem, hns⟩
    · rename_i hu
      rw [List.mem_cons, ih]
      constructor
      · rintro (rfl | ⟨hmem, hns⟩)
        · exact ⟨List.mem_cons_self _ _, hu⟩
        · constructor
          · exact List.mem_cons_of_mem u hmem
          · intro hx; exact hns (List.mem_cons_of_mem u hx)
      · rintro ⟨hmem, hns⟩
        rw [List.mem_cons] at hmem
        rcases hmem with rfl | hmem
        · exact Or.inl rfl
        · by_cases hxu : x = u
          · exact Or.inl hxu
          · refine Or.inr ⟨hmem, ?_⟩
            intro hx
            rw [List.mem_cons] at hx
            rcases hx with h | h
            · exact hxu h
            · exact hns h

theorem nodup_dedupeFirstSeen (seen : List String) (l : List String) :
    (dedupeFirstSeen seen l).Nodup := by
  induction l generalizing seen with
  | nil => simp [dedupeFirstSeen]
  | cons u us ih =>
    simp only [dedupeFirstSeen]
    split
    · exact ih seen
    · refine List.nodup_cons.mpr ⟨?_, ih (u :: seen)⟩
      intro hmem
      rw [mem_dedupeFirstSeen] at hmem
      exact hmem.2 (List.mem_cons_self _ _)

theorem sublist_dedupeFirstSeen (seen : List String) (l : List String) :
    (dedupeFirstSeen seen l).Sublist l := by
  induction l generalizing seen with
  | nil => simp [dedupeFirstSeen]
  | cons u us ih =>
    simp only [dedupeFirstSeen]
    split
    · exact (ih seen).cons u
    · exact (ih (u :: seen)).cons₂ u

theorem collectLinkLines_eq_filter (lines : List String) :
    collectLinkLines lines =
      (lines.map pyStripStr).filter
        (fun l => !(l = "" || pyStartsWithStr l "#")) := by
  induction lines with
  | nil => rfl
  | cons l ls ih =>
    simp only [collectLinkLines, List.map_cons, List.filter_cons]
    by_cases h : pyStripStr l = "" || pyStartsWithStr (pyStripStr l) "#"
    · simp [h, ih]
    · rw [if_neg (by simpa using h)]
      simp only [h, Bool.not_false]
      rw [ih]
      simp [h]

/-- C9: read_links_file ignores blank lines and lines starting with the
comment marker, strips surrounding whitespace from each remaining line,
and returns the remaining URLs de-duplicated while preserving first-seen
order; on the example lines a, comment, blank, a, b it returns a, b. -/
theorem claim_C9_read_links_file :
    read_links_file ["a", "#c", "", "a", "b"] = ["a", "b"] ∧
    ∀ lines : List String,
      (read_links_file lines).Nodup ∧
      (read_links_file lines).Sublist (collectLinkLines lines) ∧
      (read_links_file lines).toFinset = (collectLinkLines lines).toFinset ∧
      collectLinkLines lines =
        (lines.map pyStripStr).filter
          (fun l => !(l = "" || pyStartsWithStr l "#")) := by
  refine ⟨by decide, fun lines => ⟨?_, ?_, ?_, ?_⟩⟩
  · exact nodup_dedupeFirstSeen [] _
  · exact sublist_dedupeFirstSeen [] _
  · ext x
    simp [read_links_file, List.mem_toFinset, mem_dedupeFirstSeen]
  · exact collectLinkLines_eq_filter lines

/-! ## slugify (uploader.py 64-71 / run.py 129-135) -/

theorem toNat_charOfNat (m : Nat) (h : m < 55296) : (Char.ofNat m).toNat = m := by
  unfold Char.ofNat
  rw [dif_pos (Or.inl h)]
  rfl

/-- Model of the regex word class (ASCII restriction of backslash-w). -/
def isWordChar (c : Char) : Bool := asciiAlnum c || c = '_'

/-- Character class of the collapsing regex: whitespace, underscore or
hyphen. -/
def sepChar (c : Char) : Bool := pyWsChar c || c = '_' || c = '-'

/-- Worker for the separator-collapsing regex; the flag records whether
the previous character belonged to a separator run already replaced. -/
def collapseSepAux : Bool → List Char → List Char
  | _, [] => []
  | inRun, c :: cs =>
    if sepChar c then
      if inRun then collapseSepAux true cs
      else '-' :: collapseSepAux true cs
    else c :: collapseSepAux false cs

/-- Model of re.sub replacing each run of whitespace, underscore or
hyphen with a single hyphen. -/
def collapseSep (l : List Char) : List Char := collapseSepAux false l

/-- Worker for the decimal rendering of a natural number; the fuel is
structural and one more than the number suffices. -/
def natDigitsAux : Nat → Nat → List Char
  | 0, _ => []
  | fuel + 1, n =>
    if n < 10 then [Char.ofNat (48 + n)]
    else natDigitsAux fuel (n / 10) ++ [Char.ofNat (48 + n % 10)]

/-- Decimal digits of a natural number, as printed by Python str(int). -/
def natDigits (n : Nat) : List Char := natDigitsAux (n + 1) n

def natStr (n : Nat) : String := ⟨natDigits n⟩

/-- Stage one of slugify: strip, lower, and delete every character that
is neither a word character, whitespace nor a hyphen. -/
def slugFiltered (s : String) : List Char :=
  (pyLower (pyStrip s.data)).filter
    (fun c => isWordChar c || pyWsChar c || c = '-')

/-- Stage two of slugify: collapse separator runs to hyphens and strip
hyphens from both ends. -/
def slugStripped (s : String) : List Char :=
  stripP (fun c => c = '-') (collapseSep (slugFiltered s))

/-- Stage three of slugify: the story-timestamp fallback for an empty
slug. -/
def slugBase (s : String) (now : Nat) : List Char :=
  if slugStripped s = [] then ("story-".data ++ natDigits now)
  else slugStripped s

/-- Character-list core of slugify with the default max_len of 90 (the
only length the programs use); now models int(time.time()) in the
empty-slug fallback. -/
def slugCore (s : String) (now : Nat) : List Char :=
  rstripP (fun c => c = '-') ((slugBase s now).take 90)

/-- Model of slugify (uploader.py 64-71, run.py 129-135). -/
def slugify (s : String) (now : Nat) : String := ⟨slugCore s now⟩

/-- Slug candidates built by create_storyblok_story (uploader.py 347-353,
run.py 472-473): bare slug, slug plus the 4-digit random suffix, slug
plus the unix-timestamp suffix. -/
def slugCandidates (title : String) (now rand ts : Nat) : List String :=
  let base := slugify title now
  [base, base ++ "-" ++ natStr rand, base ++ "-" ++ natStr ts]

theorem asciiUpper_pyLowerChar (c : Char) : asciiUpper (pyLowerChar c) = false := by
  unfold pyLowerChar
  split
  · rename_i h
    simp only [asciiUpper, Bool.and_eq_true, decide_eq_true_eq] at h
    have hv : c.toNat + 32 < 55296 := by omega
    simp only [asciiUpper, toNat_charOfNat _ hv]
    have : ¬(65 ≤ c.toNat + 32 ∧ c.toNat + 32 ≤ 90) := by omega
    simp only [Bool.and_eq_false_iff]
    by_cases h1 : 65 ≤ c.toNat + 32
    · right; simp; omega
    · left; simp; omega
  · rename_i h
    simpa using h

theorem mem_collapseSepAux (l : List Char) :
    ∀ b, ∀ c ∈ collapseSepAux b l, c = '-' ∨ (c ∈ l ∧ sepChar c = false) := by
  induction l with
  | nil => intro b c hc; simp [collapseSepAux] at hc
  | cons a as ih =>
    intro b c hc
    simp only [collapseSepAux] at hc
    split at hc
    · rename_i ha
      split at hc
      · rcases ih true c hc with h1 | ⟨h1, h2⟩
        · exact Or.inl h1
        · exact Or.inr ⟨List.mem_cons_of_mem a h1, h2⟩
      · rw [List.mem_cons] at hc
        rcases hc with rfl | hc
        · exact Or.inl rfl
        · rcases ih true c hc with h1 | ⟨h1, h2⟩
          · exact Or.inl h1
          · exact Or.inr ⟨List.mem_cons_of_mem a h1, h2⟩
    · rename_i ha
      rw [List.mem_cons] at hc
      rcases hc with rfl | hc
      · exact Or.inr ⟨List.mem_cons_self _ _, by simpa using ha⟩
      · rcases ih false c hc with h1 | ⟨h1, h2⟩
        · exact Or.inl h1
        · exact Or.inr ⟨List.mem_cons_of_mem a h1, h2⟩

theorem mem_collapseSep (l : List Char) :
    ∀ c ∈ collapseSep l, c = '-' ∨ (c ∈ l ∧ sepChar c = false) :=
  mem_collapseSepAux l false

theorem natDigitsAux_digits :
    ∀ fuel n, n < fuel → ∀ c ∈ natDigitsAux fuel n, asciiDigit c = true := by
  intro fuel
  induction fuel with
  | zero => intro n h; omega
  | succ f ih =>
    intro n hn c hc
    simp only [natDigitsAux] at hc
    split at hc
    · rename_i h
      simp only [List.mem_singleton] at hc
      subst hc
      have hv : 48 + n < 55296 := by omega
      simp only [asciiDigit, toNat_charOfNat _ hv]
      simp only [Bool.and_eq_true, decide_eq_true_eq]
      omega
    · rename_i h
      rw [List.mem_append] at hc
      rcases hc with hc | hc
      · have hd : n / 10 < n := Nat.div_lt_self (by omega) (by omega)
        exact ih (n / 10) (by omega) c hc
      · simp only [List.mem_singleton] at hc
        subst hc
        have hm : n % 10 < 10 := Nat.mod_lt _ (by omega)
        have hv : 48 + n % 10 < 55296 := by omega
        simp only [asciiDigit, toNat_charOfNat _ hv]
        simp only [Bool.and_eq_true, decide_eq_true_eq]
        omega

theorem natDigits_digits (n : Nat) : ∀ c ∈ natDigits n, asciiDigit c = true :=
  natDigitsAux_digits (n + 1) n (Nat.lt_succ_self n)

theorem natDigits_ne_nil (n : Nat) : natDigits n ≠ [] := by
  simp only [natDigits, natDigitsAux]
  split
  · simp
  · simp

theorem dropWhile_head_false (p : Char → Bool) (l : List Char) (c : Char)
    (cs : List Char) (h : l.dropWhile p = c :: cs) : p c = false := by
  induction l with
  | nil => simp at h
  | cons a as ih =>
    rw [List.dropWhile_cons] at h
    split at h
    · exact ih h
    · rename_i ha
      cases h
      simpa using ha

theorem stripP_cons (p : Char → Bool) (l : List Char) (h : stripP p l ≠ []) :
    ∃ c cs, stripP p l = c :: cs ∧ p c = false := by
  unfold stripP at *
  rcases hL : l.dropWhile p with _ | ⟨c, cs⟩
  · rw [hL] at h
    exact absurd rfl h
  · have hc : p c = false := dropWhile_head_false p l c cs hL
    rw [rstripP_cons_of_neg p c cs hc]
    exact ⟨c, rstripP p cs, rfl, hc⟩

theorem slugBase_cons (s : String) (now : Nat) :
    ∃ c cs, slugBase s now = c :: cs ∧ decide (c = '-') = false := by
  unfold slugBase
  by_cases h0 : slugStripped s = []
  · rw [if_pos h0]
    exact ⟨'s', "tory-".data ++ natDigits now, rfl, by decide⟩
  · rw [if_neg h0]
    exact stripP_cons _ _ h0

theorem mem_stripP (p : Char → Bool) (l : List Char) :
    ∀ c ∈ stripP p l, c ∈ l := by
  intro c hc
  exact List.dropWhile_subset p (mem_rstripP p _ c hc)

theorem string_ne_empty (s : String) (h : s.data ≠ []) : s ≠ "" := by
  intro he
  subst he
  exact h rfl

theorem slugCore_cons (s : String) (now : Nat) :
    ∃ c cs, slugCore s now = c :: cs ∧ decide (c = '-') = false := by
  obtain ⟨c, cs, hEc, hc⟩ := slugBase_cons s now
  unfold slugCore
  rw [hEc]
  rw [show (90 : Nat) = 89 + 1 from rfl, List.take_succ_cons,
    rstripP_cons_of_neg _ c _ hc]
  exact ⟨c, _, rfl, hc⟩

theorem asciiDigit_not_upper (c : Char) (h : asciiDigit c = true) :
    asciiUpper c = false := by
  simp only [asciiDigit, Bool.and_eq_true, decide_eq_true_eq] at h
  simp only [asciiUpper, Bool.and_eq_false_iff]
  left
  simp only [decide_eq_false_iff_not]
  omega

theorem data_append (s t : String) : (s ++ t).data = s.data ++ t.data := by
  cases s
  cases t
  rfl

theorem mem_slugBase (s : String) (now : Nat) :
    ∀ c ∈ slugBase s now,
      c = '-' ∨ (isWordChar c = true ∧ c ≠ '_' ∧ asciiUpper c = false) := by
  intro c hc
  unfold slugBase at hc
  split at hc
  · rw [List.mem_append] at hc
    rcases hc with hc | hc
    · have hdata : "story-".data = ['s', 't', 'o', 'r', 'y', '-'] := rfl
      rw [hdata] at hc
      fin_cases hc <;> simp_all <;> decide
    · have hd := natDigits_digits now c hc
      refine Or.inr ⟨?_, ?_, asciiDigit_not_upper c hd⟩
      · simp [isWordChar, asciiAlnum, hd]
      · intro h
        subst h
        exact absurd hd (by decide)
  · have hc1 := mem_stripP _ _ c hc
    rcases mem_collapseSep _ c hc1 with h | ⟨h1, h2⟩
    · exact Or.inl h
    · rw [slugFiltered, List.mem_filter] at h1
      obtain ⟨hmem, hpred⟩ := h1
      simp only [sepChar, Bool.or_eq_false_iff, decide_eq_false_iff_not] at h2
      obtain ⟨⟨hws, hus⟩, hhy⟩ := h2
      refine Or.inr ⟨?_, hus, ?_⟩
      · simp only [Bool.or_eq_true, decide_eq_true_eq] at hpred
        rcases hpred with (h | h) | h
        · exact h
        · rw [hws] at h; exact absurd h (by simp)
        · exact absurd h hhy
      · rw [pyLower, List.mem_map] at hmem
        obtain ⟨d, _, hd⟩ := hmem
        rw [← hd]
        exact asciiUpper_pyLowerChar d

/-- C10: slugify returns a non-empty string of at most 90 characters
made only of lowercase word characters and hyphens, with no leading or
trailing hyphen (an input that sanitizes to nothing falls back to the
story-timestamp slug); consequently every slug candidate built by
create_storyblok_story is non-empty. -/
theorem claim_C10_slugify (s : String) (now rand ts : Nat) :
    slugify s now ≠ "" ∧
    (slugify s now).length ≤ 90 ∧
    (∀ c ∈ (slugify s now).data,
      c = '-' ∨ (isWordChar c = true ∧ c ≠ '_' ∧ asciiUpper c = false)) ∧
    (∀ c, (slugify s now).data.head? = some c → c ≠ '-') ∧
    (∀ c, (slugify s now).data.getLast? = some c → c ≠ '-') ∧
    (∀ cand ∈ slugCandidates s now rand ts, cand ≠ "") := by
  obtain ⟨c0, cs0, hcons, hc0⟩ := slugCore_cons s now
  have hdata : (slugify s now).data = slugCore s now := rfl
  refine ⟨?_, ?_, ?_, ?_, ?_, ?_⟩
  · apply string_ne_empty
    rw [hdata, hcons]
    simp
  · show (slugify s now).data.length ≤ 90
    rw [hdata]
    calc (slugCore s now).length ≤ ((slugBase s now).take 90).length :=
          length_rstripP _ _
      _ ≤ 90 := by simp
  · intro c hc
    rw [hdata] at hc
    have h1 : c ∈ (slugBase s now).take 90 := mem_rstripP _ _ c hc
    exact mem_slugBase s now c (List.take_subset 90 _ h1)
  · intro c hhead
    rw [hdata, hcons] at hhead
    simp only [List.head?_cons, Option.some.injEq] at hhead
    subst hhead
    simpa using hc0
  · intro c hlast
    rw [hdata] at hlast
    rcases getLast?_rstripP (fun c => decide (c = '-')) ((slugBase s now).take 90)
        with hnil | ⟨d, hd, hpd⟩
    · rw [show slugCore s now =
          rstripP (fun c => decide (c = '-')) ((slugBase s now).take 90) from rfl,
        hnil] at hcons
      simp at hcons
    · rw [show slugCore s now =
          rstripP (fun c => decide (c = '-')) ((slugBase s now).take 90) from rfl,
        hd] at hlast
      cases hlast
      simpa using hpd
  · intro cand hcand
    have hb : (slugify s now).data = c0 :: cs0 := by rw [hdata, hcons]
    simp only [slugCandidates, List.mem_cons, List.not_mem_nil, or_false] at hcand
    rcases hcand with rfl | rfl | rfl
    · apply string_ne_empty
      rw [hb]
      simp
    · apply string_ne_empty
      rw [data_append, data_append, hb]
      simp
    · apply string_ne_empty
      rw [data_append, data_append, hb]
      simp

/-- Witness for C10 at a concrete title: the slug of My Story is
non-empty, starts and ends with non-hyphen characters, and the second
candidate is non-empty. -/
theorem claim_C10_slugify_witness :
    slugify "My Story" 7 ≠ "" ∧ ('m' : Char) ≠ '-' ∧ ('y' : Char) ≠ '-' ∧
    ("my-story-1234" : String) ≠ "" :=
  ⟨(claim_C10_slugify "My Story" 7 1234 99).1,
   (claim_C10_slugify "My Story" 7 1234 99).2.2.2.1 'm' (by decide),
   (claim_C10_slugify "My Story" 7 1234 99).2.2.2.2.1 'y' (by decide),
   (claim_C10_slugify "My Story" 7 1234 99).2.2.2.2.2 "my-story-1234" (by decide)⟩

/-! ## StoryblokClient._req (uploader.py 108-129 / run.py 355-369)

The transport is an oracle giving, for each attempt number (starting at
1), either a response with status, text and json payload, or a raised
exception.  Sleep durations are rationals (Python float 1.2 times the
attempt number is exact in decimal). -/

inductive AttemptOutcome where
  | resp (status : Nat) (text : String) (json : String)
  | exc (name : String)
deriving DecidableEq

inductive ReqError where
  | httpError (status : Nat) (text : String)
  | excError (name : String)
deriving DecidableEq

instance : DecidableEq (Except ReqError String) := fun x y =>
  match x, y with
  | Except.ok a, Except.ok b =>
    if h : a = b then isTrue (by rw [h])
    else isFalse (by intro he; cases he; exact h rfl)
  | Except.error a, Except.error b =>
    if h : a = b then isTrue (by rw [h])
    else isFalse (by intro he; cases he; exact h rfl)
  | Except.ok _, Except.error _ => isFalse (by intro h; cases h)
  | Except.error _, Except.ok _ => isFalse (by intro h; cases h)

structure ReqResult where
  result : Except ReqError String
  calls : Nat
  sleeps : List ℚ
deriving DecidableEq

def isFailAttempt : AttemptOutcome → Bool
  | AttemptOutcome.resp st _ _ => 400 ≤ st
  | AttemptOutcome.exc _ => true

def errOfAttempt : AttemptOutcome → ReqError
  | AttemptOutcome.resp st text _ => ReqError.httpError st text
  | AttemptOutcome.exc n => ReqError.excError n

def okOfAttempt : AttemptOutcome → Option String
  | AttemptOutcome.resp st _ j => if st < 400 then some j else none
  | AttemptOutcome.exc _ => none

/-- Worker of the _req retry loop.  The fuel counts the remaining
attempts including the current one; a failed attempt with fuel left
sleeps 1.2 times the attempt number and recurses, the last failure
propagates the error. -/
def goReq (o : Nat → AttemptOutcome) : Nat → Nat → ReqResult
  | _, 0 => ⟨Except.error (ReqError.excError "loop-exhausted"), 0, []⟩
  | attempt, fuel + 1 =>
    let failWith : ReqError → ReqResult := fun e =>
      if fuel = 0 then ⟨Except.error e, 1, []⟩
      else
        let r := goReq o (attempt + 1) fuel
        ⟨r.result, r.calls + 1, ((12 : ℚ) / 10) * (attempt : ℚ) :: r.sleeps⟩
    match o attempt with
    | AttemptOutcome.resp st text j =>
      if 400 ≤ st then failWith (ReqError.httpError st text)
      else ⟨Except.ok j, 1, []⟩
    | AttemptOutcome.exc n => failWith (ReqError.excError n)

/-- Model of StoryblokClient._req with the default retries of 4 (the
only value the programs use). -/
def clientReq (o : Nat → AttemptOutcome) : ReqResult := goReq o 1 4

theorem goReq_spec (o : Nat → AttemptOutcome) :
    ∀ fuel a,
      (1 ≤ (goReq o a (fuel + 1)).calls ∧
        (goReq o a (fuel + 1)).calls ≤ fuel + 1) ∧
      (goReq o a (fuel + 1)).sleeps =
        (List.range ((goReq o a (fuel + 1)).calls - 1)).map
          (fun i : Nat => ((12 : ℚ) / 10) * ((a : ℚ) + (i : ℚ))) ∧
      (∀ e, (goReq o a (fuel + 1)).result = Except.error e →
        (goReq o a (fuel + 1)).calls = fuel + 1 ∧
        e = errOfAttempt (o (a + fuel)) ∧
        ∀ k, k ≤ fuel → isFailAttempt (o (a + k)) = true) ∧
      (∀ j, (goReq o a (fuel + 1)).result = Except.ok j →
        isFailAttempt (o (a + ((goReq o a (fuel + 1)).calls - 1))) = false ∧
        okOfAttempt (o (a + ((goReq o a (fuel + 1)).calls - 1))) = some j ∧
        ∀ k, k < (goReq o a (fuel + 1)).calls - 1 →
          isFailAttempt (o (a + k)) = true) := by
  intro fuel
  induction fuel with
  | zero =>
    intro a
    rcases ho : o a with ⟨st, text, j⟩ | n
    · by_cases h400 : 400 ≤ st
      · have hval : goReq o a 1 =
            ⟨Except.error (ReqError.httpError st text), 1, []⟩ := by
          simp [goReq, ho, h400]
        rw [hval]
        refine ⟨⟨le_refl 1, le_refl 1⟩, by simp, ?_, ?_⟩
        · intro e he
          cases he
          refine ⟨rfl, ?_, ?_⟩
          · simp [errOfAttempt, ho]
          · intro k hk
            interval_cases k
            simp [isFailAttempt, ho, h400]
        · intro j hj
          cases hj
      · have hval : goReq o a 1 = ⟨Except.ok j, 1, []⟩ := by
          simp [goReq, ho, h400]
        rw [hval]
        refine ⟨⟨le_refl 1, le_refl 1⟩, by simp, ?_, ?_⟩
        · intro e he
          cases he
        · intro j' hj'
          cases hj'
          refine ⟨?_, ?_, ?_⟩
          · simp [isFailAttempt, ho, h400]
          · rw [show a + (1 - 1) = a by omega, ho]
            simp only [okOfAttempt]
            rw [if_pos (by omega)]
          · intro k hk
            simp at hk
    · have hval : goReq o a 1 =
          ⟨Except.error (ReqError.excError n), 1, []⟩ := by
        simp [goReq, ho]
      rw [hval]
      refine ⟨⟨le_refl 1, le_refl 1⟩, by simp, ?_, ?_⟩
      · intro e he
        cases he
        refine ⟨rfl, ?_, ?_⟩
        · simp [errOfAttempt, ho]
        · intro k hk
          interval_cases k
          simp [isFailAttempt, ho]
      · intro j hj
        cases hj
  | succ f ih =>
    intro a
    have hstep : isFailAttempt (o a) = true →
        goReq o a (f + 1 + 1) =
          ⟨(goReq o (a + 1) (f + 1)).result,
            (goReq o (a + 1) (f + 1)).calls + 1,
            ((12 : ℚ) / 10) * (a : ℚ) :: (goReq o (a + 1) (f + 1)).sleeps⟩ →
        (1 ≤ (goReq o a (f + 1 + 1)).calls ∧
          (goReq o a (f + 1 + 1)).calls ≤ f + 1 + 1) ∧
        (goReq o a (f + 1 + 1)).sleeps =
          (List.range ((goReq o a (f + 1 + 1)).calls - 1)).map
            (fun i : Nat => ((12 : ℚ) / 10) * ((a : ℚ) + (i : ℚ))) ∧
        (∀ e, (goReq o a (f + 1 + 1)).result = Except.error e →
          (goReq o a (f + 1 + 1)).calls = f + 1 + 1 ∧
          e = errOfAttempt (o (a + (f + 1))) ∧
          ∀ k, k ≤ f + 1 → isFailAttempt (o (a + k)) = true) ∧
        (∀ j, (goReq o a (f + 1 + 1)).result = Except.ok j →
          isFailAttempt (o (a + ((goReq o a (f + 1 + 1)).calls - 1))) = false ∧
          okOfAttempt (o (a + ((goReq o a (f + 1 + 1)).calls - 1))) = some j ∧
          ∀ k, k < (goReq o a (f + 1 + 1)).calls - 1 →
            isFailAttempt (o (a + k)) = true) := by
      intro hfail hval
      obtain ⟨⟨hc1, hc2⟩, hsl, herr, hok⟩ := ih (a + 1)
      rw [hval]
      refine ⟨⟨by simp, by simpa using hc2⟩, ?_, ?_, ?_⟩
      · simp only []
        rw [hsl]
        have hm : (goReq o (a + 1) (f + 1)).calls = 
            ((goReq o (a + 1) (f + 1)).calls - 1) + 1 := by omega
        rw [show (goReq o (a + 1) (f + 1)).calls + 1 - 1 =
            ((goReq o (a + 1) (f + 1)).calls - 1) + 1 by omega]
        rw [List.range_succ_eq_map, List.map_cons, List.map_map]
        congr 1
        · push_cast
          ring
        · apply List.map_congr_left
          intro i hi
          simp only [Function.comp_apply]
          push_cast
          ring
      · intro e he
        simp only [] at he
        obtain ⟨hce, hee, hke⟩ := herr e he
        refine ⟨by show (goReq o (a + 1) (f + 1)).calls + 1 = f + 1 + 1; omega,
          ?_, ?_⟩
        · rw [show a + (f + 1) = a + 1 + f by omega]
          exact hee
        · intro k hk
          cases k with
          | zero => simpa using hfail
          | succ k' =>
            rw [show a + (k' + 1) = a + 1 + k' by omega]
            exact hke k' (by omega)
      · intro j hj
        simp only [] at hj
        obtain ⟨hf1, hf2, hf3⟩ := hok j hj
        have hidx : a + ((goReq o (a + 1) (f + 1)).calls + 1 - 1) =
            a + 1 + ((goReq o (a + 1) (f + 1)).calls - 1) := by omega
        refine ⟨?_, ?_, ?_⟩
        · simp only []
          rw [hidx]
          exact hf1
        · simp only []
          rw [hidx]
          exact hf2
        · intro k hk
          simp only [] at hk
          cases k with
          | zero => simpa using hfail
          | succ k' =>
            rw [show a + (k' + 1) = a + 1 + k' by omega]
            exact hf3 k' (by omega)
    rcases ho : o a with ⟨st, text, j⟩ | n
    · by_cases h400 : 400 ≤ st
      · refine hstep ?_ ?_
        · simp [isFailAttempt, ho, h400]
        · simp [goReq, ho, h400]
      · have hval : goReq o a (f + 1 + 1) = ⟨Except.ok j, 1, []⟩ := by
          simp [goReq, ho, h400]
        rw [hval]
        refine ⟨⟨le_refl 1, by show (1 : Nat) ≤ f + 1 + 1; omega⟩,
          by simp, ?_, ?_⟩
        · intro e he
          cases he
        · intro j' hj'
          cases hj'
          refine ⟨?_, ?_, ?_⟩
          · simp [isFailAttempt, ho, h400]
          · rw [show a + (1 - 1) = a by omega, ho]
            simp only [okOfAttempt]
            rw [if_pos (by omega)]
          · intro k hk
            simp at hk
    · refine hstep ?_ ?_
      · simp [isFailAttempt, ho]
      · simp [goReq, ho]

/-- Transport double for the C2 scenario: the first three attempts raise
a connection error, the fourth returns a successful response carrying
the json payload. -/
def reqScenario : Nat → AttemptOutcome := fun n =>
  if n = 4 then AttemptOutcome.resp 200 "" "json-result"
  else AttemptOutcome.exc "ConnectionError"

/-- C2: every CMS call through the request method makes at most 4
attempts; a status of at least 400 counts as a failure; after failed
attempt n with n below 4 the client sleeps 1.2 times n seconds; after
the 4th failed attempt the last error is propagated; and a call failing
on the first 3 attempts and succeeding on the 4th returns the json
result and sleeps exactly 3 strictly increasing delays. -/
theorem claim_C2_req_retry (o : Nat → AttemptOutcome) :
    (1 ≤ (clientReq o).calls ∧ (clientReq o).calls ≤ 4) ∧
    (clientReq o).sleeps =
      (List.range ((clientReq o).calls - 1)).map
        (fun n : Nat => ((12 : ℚ) / 10) * ((n : ℚ) + 1)) ∧
    (∀ e, (clientReq o).result = Except.error e →
      (clientReq o).calls = 4 ∧ e = errOfAttempt (o 4) ∧
      ∀ k, 1 ≤ k → k ≤ 4 → isFailAttempt (o k) = true) ∧
    (∀ j, (clientReq o).result = Except.ok j →
      isFailAttempt (o ((clientReq o).calls)) = false ∧
      okOfAttempt (o ((clientReq o).calls)) = some j ∧
      ∀ k, 1 ≤ k → k < (clientReq o).calls → isFailAttempt (o k) = true) ∧
    clientReq reqScenario =
      ⟨Except.ok "json-result", 4, [6/5, 12/5, 18/5]⟩ ∧
    ((6 : ℚ)/5 < 12/5 ∧ (12 : ℚ)/5 < 18/5) := by
  obtain ⟨⟨hc1, hc2⟩, hsl, herr, hok⟩ := goReq_spec o 3 1
  have hcr : clientReq o = goReq o 1 (3 + 1) := rfl
  refine ⟨⟨by rw [hcr]; exact hc1, by rw [hcr]; exact hc2⟩, ?_, ?_, ?_, ?_, ?_⟩
  · rw [hcr, hsl]
    apply List.map_congr_left
    intro i hi
    push_cast
    ring
  · intro e he
    rw [hcr] at he
    obtain ⟨h1, h2, h3⟩ := herr e he
    refine ⟨by rw [hcr]; exact h1, by simpa using h2, ?_⟩
    intro k hk1 hk4
    have := h3 (k - 1) (by omega)
    rwa [show 1 + (k - 1) = k by omega] at this
  · intro j hj
    rw [hcr] at hj
    obtain ⟨h1, h2, h3⟩ := hok j hj
    refine ⟨?_, ?_, ?_⟩
    · rw [hcr]
      rwa [show 1 + ((goReq o 1 (3 + 1)).calls - 1) =
        (goReq o 1 (3 + 1)).calls by omega] at h1
    · rw [hcr]
      rwa [show 1 + ((goReq o 1 (3 + 1)).calls - 1) =
        (goReq o 1 (3 + 1)).calls by omega] at h2
    · intro k hk1 hklt
      rw [hcr] at hklt
      have := h3 (k - 1) (by omega)
      rwa [show 1 + (k - 1) = k by omega] at this
  · have g1 : goReq reqScenario 4 1 = ⟨Except.ok "json-result", 1, []⟩ := by
      simp [goReq, reqScenario]
    have g2 : goReq reqScenario 3 2 =
        ⟨Except.ok "json-result", 2, [((12 : ℚ) / 10) * (3 : ℚ)]⟩ := by
      simp [goReq, reqScenario, g1]
    have g3 : goReq reqScenario 2 3 =
        ⟨Except.ok "json-result", 3,
          [((12 : ℚ) / 10) * (2 : ℚ), ((12 : ℚ) / 10) * (3 : ℚ)]⟩ := by
      simp [goReq, reqScenario, g2]
    have g4 : goReq reqScenario 1 4 =
        ⟨Except.ok "json-result", 4,
          [((12 : ℚ) / 10) * (1 : ℚ), ((12 : ℚ) / 10) * (2 : ℚ),
            ((12 : ℚ) / 10) * (3 : ℚ)]⟩ := by
      simp [goReq, reqScenario, g3]
    rw [show clientReq reqScenario = goReq reqScenario 1 4 from rfl, g4]
    norm_num
  · norm_num

/-- Witness for C2 at the concrete fail-fail-fail-succeed transport. -/
theorem claim_C2_req_retry_witness :
    isFailAttempt (reqScenario ((clientReq reqScenario).calls)) = false ∧
    okOfAttempt (reqScenario ((clientReq reqScenario).calls)) =
      some "json-result" :=
  ⟨((claim_C2_req_retry reqScenario).2.2.2.1 "json-result" (by decide)).1,
   ((claim_C2_req_retry reqScenario).2.2.2.1 "json-result" (by decide)).2.1⟩

/-! ## create_storyblok_story (uploader.py 326-396 / run.py 469-491)

The CMS is an oracle from the attempted slug to the outcome of the
create call; ok carries the story object left after the
result-get-story unwrapping, httpErr a raised HTTPError with its
optional response, otherExc any other exception. -/

structure StoryObj where
  id : Nat
  slug : String
deriving DecidableEq

structure CmsResp where
  status : Nat
  body : String
deriving DecidableEq

inductive CreateOutcome where
  | ok (story : StoryObj)
  | httpErr (resp : Option CmsResp)
  | otherExc (name : String)
deriving DecidableEq

/-- The 422 recovery test of uploader.py 381-385: the response is not
None, has status 422, and its lowered body mentions already taken or
slug. -/
def uploaderSlugConflict : Option CmsResp → Bool
  | none => false
  | some r =>
    r.status = 422 &&
      (pyContainsStr (pyLowerStr r.body) "already taken" ||
        pyContainsStr (pyLowerStr r.body) "slug")

/-- The same test as written in run.py 483-484, which checks the
truthiness of the response instead of comparing with None; a requests
response is truthy only when its status is below 400, so this test also
requires status below 400. -/
def runSlugConflict : Option CmsResp → Bool
  | none => false
  | some r =>
    (decide (r.status < 400) && r.status = 422) &&
      (pyContainsStr (pyLowerStr r.body) "already taken" ||
        pyContainsStr (pyLowerStr r.body) "slug")

/-- Slug-attempt loop shared by the two create_storyblok_story variants:
try each candidate in order; on success return the story; on an
HTTPError passing the conflict test move to the next candidate; on any
other error stop with no story; exhausting the candidates also yields no
story.  The second component lists the slugs actually sent to the
CMS. -/
def tryCreateSlugs (conflict : Option CmsResp → Bool)
    (cms : String → CreateOutcome) :
    List String → Option StoryObj × List String
  | [] => (none, [])
  | slug :: rest =>
    match cms slug with
    | CreateOutcome.ok st => (some st, [slug])
    | CreateOutcome.httpErr resp =>
      if conflict resp then
        let r := tryCreateSlugs conflict cms rest
        (r.1, slug :: r.2)
      else (none, [slug])
    | CreateOutcome.otherExc _ => (none, [slug])

/-- Model of uploader.py create_storyblok_story restricted to the slug
negotiation (content building, folder id and logging are elided); now,
rand and ts are the clock and random suffix parameters. -/
def uploader_create_storyblok_story (cms : String → CreateOutcome)
    (title : String) (now rand ts : Nat) : Option StoryObj × List String :=
  tryCreateSlugs uploaderSlugConflict cms (slugCandidates title now rand ts)

/-- Model of run.py create_storyblok_story, identical except for the
truthiness test on the error response. -/
def run_create_storyblok_story (cms : String → CreateOutcome)
    (title : String) (now rand ts : Nat) : Option StoryObj × List String :=
  tryCreateSlugs runSlugConflict cms (slugCandidates title now rand ts)

/-- CMS double for C1: the third candidate slug is accepted, every other
slug is rejected with a 422 slug-already-taken response. -/
def slugCms : String → CreateOutcome := fun slug =>
  if slug = "my-story-1700000000" then
    CreateOutcome.ok ⟨7, "my-story-1700000000"⟩
  else CreateOutcome.httpErr (some ⟨422, "Slug already taken"⟩)

/-- C1: with a CMS double rejecting the first two candidates as slug
conflicts and accepting the third, uploader.py create_storyblok_story
returns the story created under the third candidate after exactly 3
creation calls, as the claim states; run.py create_storyblok_story on
the same double stops after a single call and returns no story, because
a 422 response is falsy and its retry branch is unreachable. -/
theorem claim_C1_slug_negotiation :
    uploader_create_storyblok_story slugCms "My Story" 0 1234 1700000000 =
      (some ⟨7, "my-story-1700000000"⟩,
        ["my-story", "my-story-1234", "my-story-1700000000"]) ∧
    run_create_storyblok_story slugCms "My Story" 0 1234 1700000000 =
      (none, ["my-story"]) := by
  exact ⟨by decide, by decide⟩

/-! ## URL machinery (model of the urllib.parse functions used)

urlsplit follows the current CPython implementation: left-strip of C0
controls and space, removal of tab, carriage return and newline,
scheme detection requiring a leading ASCII letter, authority delimited
by slash, question mark or hash, then fragment and query splits.  The
IPv6 bracket validation (which raises) and the non-ASCII netloc checks
are not modelled.  quote percent-encodes the UTF-8 bytes of every
character that is neither always-safe nor in the safe set, with
uppercase hex digits. -/

/-- Characters always kept by urllib quote: ASCII alphanumerics and the
four unreserved marks. -/
def alwaysSafe (c : Char) : Bool :=
  asciiAlnum c || c = '_' || c = '.' || c = '-' || c = '~'

/-- Uppercase hexadecimal digit of a value below 16. -/
def hexChar : Nat → Char
  | 0 => '0' | 1 => '1' | 2 => '2' | 3 => '3' | 4 => '4'
  | 5 => '5' | 6 => '6' | 7 => '7' | 8 => '8' | 9 => '9'
  | 10 => 'A' | 11 => 'B' | 12 => 'C' | 13 => 'D' | 14 => 'E'
  | 15 => 'F'
  | _ + 16 => '0'

/-- UTF-8 bytes of a character. -/
def utf8Bytes (c : Char) : List Nat :=
  let v := c.toNat
  if v < 128 then [v]
  else if v < 2048 then [192 + v / 64, 128 + v % 64]
  else if v < 65536 then
    [224 + v / 4096, 128 + (v / 64) % 64, 128 + v % 64]
  else
    [240 + v / 262144, 128 + (v / 4096) % 64, 128 + (v / 64) % 64,
      128 + v % 64]

def percentEncodeByte (b : Nat) : List Char :=
  ['%', hexChar (b / 16), hexChar (b % 16)]

/-- Model of urllib.parse.quote on characters. -/
def pyQuote (l : List Char) (safe : List Char) : List Char :=
  l.flatMap (fun c =>
    if alwaysSafe c || safe.any (fun d => d = c) then [c]
    else (utf8Bytes c).flatMap percentEncodeByte)

/-- Safe set normalize_url passes to quote for the path. -/
def pathSafe : List Char := "/%()_-.,~".data

/-- Safe set normalize_url passes to quote for the query. -/
def querySafe : List Char := "=&%".data

structure SplitResult where
  scheme : List Char
  netloc : List Char
  path : List Char
  query : List Char
  fragment : List Char

def schemeChar (c : Char) : Bool :=
  asciiAlnum c || c = '+' || c = '-' || c = '.'

/-- Scheme detection of urlsplit: everything before the first colon,
provided it is non-empty, starts with an ASCII letter and contains only
scheme characters; the scheme is lowered. -/
def splitScheme (l : List Char) : Option (List Char × List Char) :=
  let pre := l.takeWhile (fun c => !(c = ':'))
  if decide (pre.length < l.length) && !pre.isEmpty &&
      (match pre with | c :: _ => asciiAlpha c | [] => false) &&
      pre.all schemeChar then
    some (pre.map pyLowerChar, l.drop (pre.length + 1))
  else none

def netlocDelim (c : Char) : Bool := c = '/' || c = '?' || c = '#'

/-- Partition at the first occurrence of a character, dropping the
separator; the whole string and an empty tail when absent. -/
def splitOnFirst (ch : Char) (l : List Char) : List Char × List Char :=
  if l.any (fun c => c = ch) then
    (l.takeWhile (fun c => !(c = ch)),
      (l.dropWhile (fun c => !(c = ch))).drop 1)
  else (l, [])

/-- Left strip of C0 controls and space performed by urlsplit. -/
def whatwgLstrip (l : List Char) : List Char :=
  l.dropWhile (fun c => c.toNat ≤ 32)

/-- Removal of tab, carriage return and newline performed by urlsplit. -/
def removeUnsafeUrlChars (l : List Char) : List Char :=
  l.filter (fun c => !(c = '\t' || c = '\r' || c = '\n'))

/-- Sanitization performed by urlsplit before any split. -/
def urlsplitClean (url : List Char) : List Char :=
  removeUnsafeUrlChars (whatwgLstrip url)

/-- Scheme and remainder of the sanitized url. -/
def urlsplitSchemeRest (url : List Char) : List Char × List Char :=
  match splitScheme (urlsplitClean url) with
  | some (s, r) => (s, r)
  | none => ([], urlsplitClean url)

/-- Model of urllib.parse.urlsplit. -/
def pyUrlsplit (url : List Char) : SplitResult :=
  let sr := urlsplitSchemeRest url
  let netloc :=
    if sr.2.take 2 = ['/', '/'] then
      (sr.2.drop 2).takeWhile (fun c => !netlocDelim c)
    else []
  let rest2 :=
    if sr.2.take 2 = ['/', '/'] then
      (sr.2.drop 2).dropWhile (fun c => !netlocDelim c)
    else sr.2
  let pf := splitOnFirst '#' rest2
  let pq := splitOnFirst '?' pf.1
  ⟨sr.1, netloc, pq.1, pq.2, pf.2⟩

/-- Schemes for which urljoin resolves relative references. -/
def usesRelativeSchemes : List (List Char) :=
  ["", "ftp", "http", "gopher", "nntp", "imap", "wais", "file", "https",
    "shttp", "mms", "prospero", "rtsp", "rtspu", "sftp", "svn",
    "svn+ssh", "ws", "wss"].map String.data

/-- Schemes that carry an authority component. -/
def usesNetlocSchemes : List (List Char) :=
  ["", "ftp", "http", "gopher", "nntp", "telnet", "imap", "wais",
    "file", "mms", "https", "shttp", "snews", "prospero", "rtsp",
    "rtspu", "rsync", "svn", "svn+ssh", "sftp", "nfs", "git",
    "git+ssh", "ws", "wss"].map String.data

def listMem (x : List Char) (xs : List (List Char)) : Bool :=
  xs.any (fun y => y = x)

/-- Split on every occurrence of a character, as Python str.split with a
separator: always at least one (possibly empty) part. -/
def splitOnChar (sep : Char) : List Char → List (List Char)
  | [] => [[]]
  | c :: cs =>
    if c = sep then [] :: splitOnChar sep cs
    else
      match splitOnChar sep cs with
      | [] => [[c]]
      | p :: ps => (c :: p) :: ps

def joinWith (sep : Char) : List (List Char) → List Char
  | [] => []
  | [x] => x
  | x :: xs => x ++ sep :: joinWith sep xs

/-- Dot-segment resolution loop of urljoin. -/
def resolveSegments (segs : List (List Char)) : List (List Char) :=
  segs.foldl
    (fun acc seg =>
      if seg = ['.', '.'] then acc.dropLast
      else if seg = ['.'] then acc
      else acc ++ [seg])
    []

/-- Model of urllib.parse.urlunsplit. -/
def pyUrlunsplit (scheme netloc path query fragment : List Char) :
    List Char :=
  let u := path
  let u :=
    if !netloc.isEmpty || u.take 2 = ['/', '/'] then
      '/' :: '/' :: netloc ++
        (if !u.isEmpty && !(u.take 1 = ['/']) then '/' :: u else u)
    else u
  let u := if !scheme.isEmpty then scheme ++ ':' :: u else u
  let u := if !query.isEmpty then u ++ '?' :: query else u
  if !fragment.isEmpty then u ++ '#' :: fragment else u

/-- Middle filter of urljoin: empty interior segments are removed while
the first and last segments are kept. -/
def filterMiddleSegs : List (List Char) → List (List Char)
  | [] => []
  | [x] => [x]
  | x :: rest =>
    match rest.getLast? with
    | none => [x]
    | some last => x :: (rest.dropLast.filter (fun s => !s.isEmpty) ++ [last])

/-- Model of urllib.parse.urljoin.  The program only joins an
absolute-path reference (a url beginning with one slash) against a
scheme-and-host base; the parameters component of urlparse is folded
into the path, which round-trips identically for such references. -/
def pyUrljoin (base url : List Char) : List Char :=
  if base.isEmpty then url
  else if url.isEmpty then base
  else
    let b := pyUrlsplit base
    let u := pyUrlsplit url
    let uscheme := if u.scheme.isEmpty then b.scheme else u.scheme
    if !(uscheme = b.scheme) || !listMem uscheme usesRelativeSchemes then
      url
    else if listMem uscheme usesNetlocSchemes && !u.netloc.isEmpty then
      pyUrlunsplit uscheme u.netloc u.path u.query u.fragment
    else
      let netloc :=
        if listMem uscheme usesNetlocSchemes then b.netloc else u.netloc
      if u.path.isEmpty then
        pyUrlunsplit uscheme netloc b.path
          (if u.query.isEmpty then b.query else u.query) u.fragment
      else
        let baseParts := splitOnChar '/' b.path
        let baseParts :=
          if baseParts.getLast? = some [] then baseParts
          else baseParts.dropLast
        let segs :=
          if u.path.take 1 = ['/'] then splitOnChar '/' u.path
          else filterMiddleSegs (baseParts ++ splitOnChar '/' u.path)
        let resolved := resolveSegments segs
        let resolved :=
          if segs.getLast? = some ['.'] || segs.getLast? = some ['.', '.']
          then resolved ++ [[]]
          else resolved
        let newPath :=
          if (joinWith '/' resolved).isEmpty then ['/']
          else joinWith '/' resolved
        pyUrlunsplit uscheme netloc newPath u.query u.fragment

/-- Prefixing steps of normalize_url: strip, https on protocol-relative
urls, join of root-relative urls against the page base. -/
def preNormalize (url base : List Char) : List Char :=
  let u := pyStrip url
  let u := if u.take 2 = ['/', '/'] then "https:".data ++ u else u
  if u.take 1 = ['/'] then pyUrljoin base u else u

/-- Reassembly of normalize_url: scheme, separator, authority, quoted
path, and the quoted query when it is non-empty. -/
def assembleNorm (s n qp qq : List Char) : List Char :=
  if !qq.isEmpty then s ++ ':' :: '/' :: '/' :: (n ++ qp ++ '?' :: qq)
  else s ++ ':' :: '/' :: '/' :: (n ++ qp)

/-- Character-list core of normalize_url (scraper.py 90-102, run.py
110-121): split the prefixed url, re-quote path and query, reassemble
scheme, authority, path and optional query. -/
def normCore (url base : List Char) : List Char :=
  if url.isEmpty then []
  else
    let p := pyUrlsplit (preNormalize url base)
    assembleNorm p.scheme p.netloc (pyQuote p.path pathSafe)
      (pyQuote p.query querySafe)

/-- Model of normalize_url. -/
def normalize_url (url base : String) : String := ⟨normCore url.data base.data⟩

/-- Model of get_page_base (scraper.py 105-107, run.py 124-126). -/
def get_page_base (url : String) : String :=
  let p := pyUrlsplit url.data
  ⟨p.scheme ++ ':' :: '/' :: '/' :: p.netloc⟩

/-! ## Parsed documents (BeautifulSoup model)

A parsed document (soup) is a forest of nodes; an element node carries
its tag, attribute list and children, a text node its string.  The HTML
parser itself is external: the extractors are quantified over parsed
documents. -/

mutual

inductive HNode where
  | elem (tag : String) (attrs : List (String × String)) (children : HForest)
  | text (s : String)

inductive HForest where
  | nil
  | cons (n : HNode) (f : HForest)

end

/-- Forest built from a list of nodes, for concrete documents. -/
def forestOf : List HNode → HForest
  | [] => HForest.nil
  | n :: ns => HForest.cons n (forestOf ns)

mutual

/-- Document-order (pre-order) nodes below one node, the node itself
included, as enumerated by the BeautifulSoup descendants traversal. -/
def allNodesN : HNode → List HNode
  | HNode.text s => [HNode.text s]
  | HNode.elem t a c => HNode.elem t a c :: allNodes c

/-- Document-order (pre-order) nodes of a forest. -/
def allNodes : HForest → List HNode
  | HForest.nil => []
  | HForest.cons n f => allNodesN n ++ allNodes f

end

mutual

/-- Concatenated text below one node (get_text with no separator). -/
def getTextNAux : HNode → List Char
  | HNode.text s => s.data
  | HNode.elem _ _ c => getTextFAux c

def getTextFAux : HForest → List Char
  | HForest.nil => []
  | HForest.cons n f => getTextNAux n ++ getTextFAux f

end

def getTextN (n : HNode) : String := ⟨getTextNAux n⟩

def nodeAttrs : HNode → List (String × String)
  | HNode.elem _ a _ => a
  | HNode.text _ => []

def nodeChildren : HNode → HForest
  | HNode.elem _ _ c => c
  | HNode.text _ => HForest.nil

/-- Model of Tag.get for attributes (Python dict access with default). -/
def attrGet (attrs : List (String × String)) (k : String) : Option String :=
  (attrs.find? (fun kv => kv.1 = k)).map (fun kv => kv.2)

def attrGetD (attrs : List (String × String)) (k d : String) : String :=
  (attrGet attrs k).getD d

/-- First node of the forest, in document order, satisfying the
predicate: the model of soup.find. -/
def findNode (p : HNode → Bool) (soup : HForest) : Option HNode :=
  (allNodes soup).find? p

def hasTag (t : String) (n : HNode) : Bool :=
  match n with
  | HNode.elem tg _ _ => tg = t
  | HNode.text _ => false

/-- Matcher for find with a tag name and an exact attribute value. -/
def isTagWithAttr (tag key val : String) (n : HNode) : Bool :=
  match n with
  | HNode.elem tg attrs _ =>
    tg = tag && decide (attrGet attrs key = some val)
  | HNode.text _ => false

/-- Tokens of the class attribute, split on whitespace as BeautifulSoup
does for multi-valued attributes. -/
def wordsAux : List Char → List Char → List (List Char)
  | [], acc => if acc.isEmpty then [] else [acc.reverse]
  | c :: cs, acc =>
    if pyWsChar c then
      if acc.isEmpty then wordsAux cs []
      else acc.reverse :: wordsAux cs []
    else wordsAux cs (c :: acc)

def splitWsWords (l : List Char) : List (List Char) := wordsAux l []

/-- Matcher for find with class_ set to a class name: the tag has a
class attribute one of whose tokens equals the name. -/
def isTagWithClass (tag cls : String) (n : HNode) : Bool :=
  match n with
  | HNode.elem tg attrs _ =>
    tg = tag &&
      (match attrGet attrs "class" with
       | none => false
       | some v => (splitWsWords v.data).any (fun t => t = cls.data))
  | HNode.text _ => false

/-- Matcher for find with class_ set to a function testing that the
class value contains a word (extract_body_text passes such a lambda);
the test is applied to each class token. -/
def isTagWithClassContaining (tags : List String) (needle : String)
    (n : HNode) : Bool :=
  match n with
  | HNode.elem tg attrs _ =>
    tags.any (fun t => t = tg) &&
      (match attrGet attrs "class" with
       | none => false
       | some v =>
         (splitWsWords v.data).any
           (fun t => pyContains (pyLower t) needle.data))
  | HNode.text _ => false

/-! ## Field extractors (scraper.py 126-248 / run.py 168-241) -/

/-- Run-collapsing step of safe_text: every run of whitespace becomes a
single space. -/
def collapseWsAux : Bool → List Char → List Char
  | _, [] => []
  | inRun, c :: cs =>
    if pyWsChar c then
      if inRun then collapseWsAux true cs
      else ' ' :: collapseWsAux true cs
    else c :: collapseWsAux false cs

/-- Model of safe_text: no-break spaces become spaces, whitespace runs
collapse to single spaces, ends are stripped. -/
def safe_text (s : String) : String :=
  ⟨pyStrip (collapseWsAux false
    (s.data.map (fun c => if c = Char.ofNat 160 then ' ' else c)))⟩

/-- Model of extract_title: first h1 text, else og:title meta content,
else title text, else the literal Untitled. -/
def extract_title (soup : HForest) : String :=
  match findNode (hasTag "h1") soup with
  | some h1 => safe_text (getTextN h1)
  | none =>
    match findNode (isTagWithAttr "meta" "property" "og:title") soup with
    | some og => safe_text (attrGetD (nodeAttrs og) "content" "")
    | none =>
      match findNode (hasTag "title") soup with
      | some tt => safe_text (getTextN tt)
      | none => "Untitled"

/-- Model of extract_description. -/
def extract_description (soup : HForest) : String :=
  match findNode (isTagWithAttr "meta" "property" "og:description") soup with
  | some og => safe_text (attrGetD (nodeAttrs og) "content" "")
  | none =>
    match findNode (isTagWithAttr "meta" "name" "description") soup with
    | some m => safe_text (attrGetD (nodeAttrs m) "content" "")
    | none => ""

def hasImgSrc (n : HNode) : Bool :=
  match n with
  | HNode.elem t attrs _ => t = "img" && (attrGet attrs "src").isSome
  | HNode.text _ => false

/-- Content container of extract_hero_image: the ContentMain div, else
the MainContentZone div. -/
def heroContentDiv (soup : HForest) : Option HNode :=
  match findNode (isTagWithClass "div" "ContentMain") soup with
  | some n => some n
  | none => findNode (isTagWithClass "div" "MainContentZone") soup

/-- Forest searched for images: the children of the content container
when one exists (find_all searches descendants), else the whole soup. -/
def heroSearchForest (soup : HForest) : HForest :=
  match heroContentDiv soup with
  | some n => nodeChildren n
  | none => soup

/-- src attributes of the img descendants of the search forest, in
document order. -/
def imgSrcs (forest : HForest) : List String :=
  ((allNodes forest).filter hasImgSrc).map
    (fun n => attrGetD (nodeAttrs n) "src" "")

def skipPatterns : List String :=
  ["facebook.com/tr", "google-analytics", "pixel", "doubleclick",
    "logo", "icon", "avatar", "_layouts", "spcommon", "siteassets"]

/-- Blocklist test of extract_hero_image, on the lowered src. -/
def skipMatch (src : String) : Bool :=
  skipPatterns.any (fun p => pyContainsStr (pyLowerStr src) p)

def knownImageExts : List String := [".png", ".jpg", ".jpeg", ".gif", ".webp"]

/-- Known-extension test of extract_hero_image, on the lowered src. -/
def imageExtOk (src : String) : Bool :=
  knownImageExts.any (fun e => pyEndsWith (pyLower src.data) e.data)

/-- Image loop of extract_hero_image, translated clause by clause: skip
empty srcs, blocklisted srcs and unknown extensions; return the first
normalization that is non-empty. -/
def heroLoop (base : String) : List String → Option String
  | [] => none
  | src :: rest =>
    if src = "" then heroLoop base rest
    else if skipMatch src then heroLoop base rest
    else if !imageExtOk src then heroLoop base rest
    else if !(normalize_url src base = "") then some (normalize_url src base)
    else heroLoop base rest

/-- Model of extract_hero_image. -/
def extract_hero_image (soup : HForest) (base : String) : Option String :=
  heroLoop base (imgSrcs (heroSearchForest soup))

mutual

/-- Pre-order traversal carrying, for every node, whether one of its
ancestors is a p element (the find_parent test of extract_body_text). -/
def allNodesInPN : Bool → HNode → List (HNode × Bool)
  | inP, HNode.text s => [(HNode.text s, inP)]
  | inP, HNode.elem t a c =>
    (HNode.elem t a c, inP) :: allNodesInP (inP || t = "p") c

def allNodesInP : Bool → HForest → List (HNode × Bool)
  | _, HForest.nil => []
  | inP, HForest.cons n f => allNodesInPN inP n ++ allNodesInP inP f

end

def findNodeWithFlag (p : HNode → Bool) (soup : HForest) :
    Option (HNode × Bool) :=
  (allNodesInP false soup).find? (fun nb => p nb.1)

/-- Content container of extract_body_text: ContentMain div, else
MainContentZone div, else any div whose class contains the word
content. -/
def bodyContainer (soup : HForest) : Option (HNode × Bool) :=
  match findNodeWithFlag (isTagWithClass "div" "ContentMain") soup with
  | some nb => some nb
  | none =>
    match findNodeWithFlag (isTagWithClass "div" "MainContentZone") soup with
    | some nb => some nb
    | none =>
      findNodeWithFlag (isTagWithClassContaining ["div"] "content") soup

def isPorEm (n : HNode) : Bool := hasTag "p" n || hasTag "em" n

/-- Candidate blocks of extract_body_text with their p-ancestor flags. -/
def bodyBlocks (soup : HForest) : List (HNode × Bool) :=
  match bodyContainer soup with
  | some nb =>
    (allNodesInP (nb.2 || hasTag "p" nb.1) (nodeChildren nb.1)).filter
      (fun x => isPorEm x.1)
  | none => (allNodesInP false soup).filter (fun x => isPorEm x.1)

def joinBlankLine : List String → String
  | [] => ""
  | [x] => x
  | x :: xs => x ++ "\n\n" ++ joinBlankLine xs

/-- Model of extract_body_text: paragraphs and free-standing em blocks
of at least 3 characters, joined by blank lines. -/
def extract_body_text (soup : HForest) : String :=
  joinBlankLine ((bodyBlocks soup).filterMap (fun nb =>
    if hasTag "em" nb.1 && nb.2 then none
    else
      let t := safe_text (getTextN nb.1)
      if !(t = "") && 3 ≤ (pyStripStr t).data.length then some t
      else none))

/-- Match of the date regex at the head of the string: four digits,
hyphen, two digits, hyphen, two digits. -/
def matchDateAt : List Char → Option (List Char)
  | a :: b :: c :: d :: '-' :: e :: f :: '-' :: g :: h :: _ =>
    if asciiDigit a && asciiDigit b && asciiDigit c && asciiDigit d &&
        asciiDigit e && asciiDigit f && asciiDigit g && asciiDigit h then
      some [a, b, c, d, '-', e, f, '-', g, h]
    else none
  | _ => none

/-- Leftmost match of the date regex (re.search). -/
def dateSearch : List Char → Option (List Char)
  | [] => none
  | c :: cs =>
    match matchDateAt (c :: cs) with
    | some m => some m
    | none => dateSearch cs

/-- Elements scanned by the second strategy of extract_date: span or
div whose class contains date, published or modified. -/
def isDateClassEl (n : HNode) : Bool :=
  match n with
  | HNode.elem tg attrs _ =>
    (tg = "span" || tg = "div") &&
      (match attrGet attrs "class" with
       | none => false
       | some v =>
         (splitWsWords v.data).any (fun t =>
           pyContains (pyLower t) "date".data ||
           pyContains (pyLower t) "published".data ||
           pyContains (pyLower t) "modified".data))
  | HNode.text _ => false

def dateLoop : List HNode → Option String
  | [] => none
  | el :: rest =>
    match dateSearch (safe_text (getTextN el)).data with
    | some m => some ⟨m⟩
    | none => dateLoop rest

def dateFromClassEls (soup : HForest) : Option String :=
  dateLoop ((allNodes soup).filter isDateClassEl)

/-- Model of extract_date. -/
def extract_date (soup : HForest) : Option String :=
  match findNode
      (isTagWithAttr "meta" "property" "article:published_time") soup with
  | some pub =>
    let ds := attrGetD (nodeAttrs pub) "content" ""
    if !(ds = "") then
      match dateSearch ds.data with
      | some m => some ⟨m⟩
      | none => dateFromClassEls soup
    else dateFromClassEls soup
  | none => dateFromClassEls soup

structure SuccessStory where
  source_url : String
  title : String
  date : Option String
  description : String
  body_text : String
  hero_image : Option String
deriving DecidableEq

/-- Model of parse_story_html after the HTML has been parsed into a
soup (the BeautifulSoup call itself is the external parser). -/
def parse_story (soup : HForest) (page_url : String) : SuccessStory :=
  let base := get_page_base page_url
  { source_url := page_url
    title := extract_title soup
    date := extract_date soup
    description := extract_description soup
    body_text := extract_body_text soup
    hero_image := extract_hero_image soup base }

/-! ## Claims about the extractors -/

/-- C4: when a document has no h1 element, no og:title meta and no
title element, extract_title returns exactly Untitled; in general the
result follows the ordered fallback chain: first h1 text, else og:title
meta content, else title text, else Untitled. -/
theorem claim_C4_extract_title (soup : HForest) :
    (findNode (hasTag "h1") soup = none →
      findNode (isTagWithAttr "meta" "property" "og:title") soup = none →
      findNode (hasTag "title") soup = none →
      extract_title soup = "Untitled") ∧
    (∀ e, findNode (hasTag "h1") soup = some e →
      extract_title soup = safe_text (getTextN e)) ∧
    (∀ e, findNode (hasTag "h1") soup = none →
      findNode (isTagWithAttr "meta" "property" "og:title") soup = some e →
      extract_title soup = safe_text (attrGetD (nodeAttrs e) "content" "")) ∧
    (∀ e, findNode (hasTag "h1") soup = none →
      findNode (isTagWithAttr "meta" "property" "og:title") soup = none →
      findNode (hasTag "title") soup = some e →
      extract_title soup = safe_text (getTextN e)) := by
  refine ⟨?_, ?_, ?_, ?_⟩ <;> intros <;> simp_all [extract_title]

/-- Witness for C4: the empty document has none of the three sources
and its title is Untitled. -/
theorem claim_C4_extract_title_witness :
    extract_title HForest.nil = "Untitled" :=
  (claim_C4_extract_title HForest.nil).1 rfl rfl rfl

/-- Counterexample to C8 as stated: a document whose only element is an
empty h1 parses to a record with an empty title. -/
theorem claim_C8_counterexample :
    (parse_story (forestOf [HNode.elem "h1" [] HForest.nil])
      "https://www.aku.edu").title = "" := by
  decide

/-- C8 as amended: the record title is the non-empty Untitled whenever
the document has no h1, no og:title meta and no title element; when a
title source element exists, its normalized text is used verbatim and
may be empty. -/
theorem claim_C8_title_amended (soup : HForest) (url : String)
    (h1 : findNode (hasTag "h1") soup = none)
    (h2 : findNode (isTagWithAttr "meta" "property" "og:title") soup = none)
    (h3 : findNode (hasTag "title") soup = none) :
    (parse_story soup url).title = "Untitled" ∧
    (parse_story soup url).title ≠ "" := by
  have ht : (parse_story soup url).title = extract_title soup := rfl
  rw [ht]
  constructor
  · simp [extract_title, h1, h2, h3]
  · simp [extract_title, h1, h2, h3]

/-- Witness for the amended C8 at the empty document. -/
theorem claim_C8_title_amended_witness :
    (parse_story HForest.nil "https://x").title = "Untitled" ∧
    (parse_story HForest.nil "https://x").title ≠ "" :=
  claim_C8_title_amended HForest.nil "https://x" rfl rfl rfl

theorem data_eq_nil_imp (s : String) (h : s.data = []) : s = "" := by
  cases s
  simp_all

theorem normCore_ne_nil (url base : List Char) (h : url ≠ []) :
    normCore url base ≠ [] := by
  unfold normCore
  rw [if_neg (by simpa using h)]
  dsimp only
  unfold assembleNorm
  split <;> simp

theorem normalize_url_ne_empty (src base : String) (h : src ≠ "") :
    normalize_url src base ≠ "" := by
  apply string_ne_empty
  apply normCore_ne_nil
  intro hd
  exact h (data_eq_nil_imp src hd)

theorem heroLoop_eq_find (base : String) (l : List String) :
    heroLoop base l =
      (l.find? (fun src => !skipMatch src && imageExtOk src)).map
        (fun src => normalize_url src base) := by
  induction l with
  | nil => rfl
  | cons src rest ih =>
    simp only [heroLoop]
    by_cases h0 : src = ""
    · subst h0
      rw [if_pos rfl, List.find?_cons_of_neg _ (by decide)]
      exact ih
    · rw [if_neg h0]
      by_cases hskip : skipMatch src = true
      · rw [if_pos hskip, List.find?_cons_of_neg _ (by simp [hskip])]
        exact ih
      · rw [if_neg hskip]
        by_cases hext : imageExtOk src = true
        · have hgood : (!skipMatch src && imageExtOk src) = true := by
            simp only [hext, Bool.and_true, Bool.not_eq_true']
            simpa using hskip
          rw [if_neg (by simp [hext])]
          have hne : ¬(normalize_url src base = "") :=
            normalize_url_ne_empty src base h0
          rw [if_pos (by simpa using hne)]
          rw [@List.find?_cons_of_pos String
            (fun src => !skipMatch src && imageExtOk src) src rest hgood]
          rfl
        · rw [if_pos (by simpa using hext)]
          rw [List.find?_cons_of_neg _ (by simp [hext])]
          exact ih

/-- C3: extract_hero_image returns the normalization of the first img
src, in document order within the chosen content container, that
contains no blocklist substring (case-insensitively) and ends in a
known image extension; when no such src exists the result is null; in
particular no returned URL is built from a src containing a blocklist
substring. -/
theorem claim_C3_hero_image (soup : HForest) (base : String) :
    extract_hero_image soup base =
      ((imgSrcs (heroSearchForest soup)).find?
        (fun src => !skipMatch src && imageExtOk src)).map
        (fun src => normalize_url src base) :=
  heroLoop_eq_find base (imgSrcs (heroSearchForest soup))

/-! ## run_scrape (run.py 275-340; the scraper.py main loop 378-467 has
the same accounting)

Fetching is an oracle from the URL to an outcome; a successful outcome
carries the parsed document (the GET and the HTML parse combined); the
image download is an oracle from the image URL to an optional local
path; the writes of record files, links_used.txt and the single
summary.json written after the loop are external. -/

structure RespInfo where
  status : Nat
deriving DecidableEq

inductive FetchOutcome where
  | ok (page : HForest)
  | httpError (resp : Option RespInfo)
  | timeout
  | connectionError
  | sslError
  | otherExc (name : String) (msg : String)

/-- Error entry of the run summary; the code and msg keys are only
present for some types, absence is collapsed to none. -/
structure ErrEntry where
  url : String
  type : String
  code : Option Nat
  msg : Option String
deriving DecidableEq

/-- The code recorded for an HTTPError, as computed by run.py 288-289:
the response is tested for truthiness, and a response with status at
least 400 is falsy, so such codes are recorded as None. -/
def httpCodeField : Option RespInfo → Option Nat
  | none => none
  | some r => if r.status < 400 then some r.status else none

def isFetchFail : FetchOutcome → Bool
  | FetchOutcome.ok _ => false
  | _ => true

/-- Error entry recorded for a failing fetch outcome (unused for the
success outcome). -/
def errEntryRec (url : String) : FetchOutcome → ErrEntry
  | FetchOutcome.ok _ => ⟨url, "", none, none⟩
  | FetchOutcome.httpError r => ⟨url, "HTTPError", httpCodeField r, none⟩
  | FetchOutcome.timeout => ⟨url, "Timeout", none, none⟩
  | FetchOutcome.connectionError => ⟨url, "ConnectionError", none, none⟩
  | FetchOutcome.sslError => ⟨url, "SSLError", none, none⟩
  | FetchOutcome.otherExc n m => ⟨url, n, none, some m⟩

structure ScrapeSummary where
  total : Nat
  success : Nat
  failed : Nat
  errors : List ErrEntry

structure ScrapeState where
  summary : ScrapeSummary
  saved : List SuccessStory

/-- One iteration of the run_scrape loop: a fetch failure records one
error entry and increments failed; a success parses the record,
rewrites the hero image to the downloaded local path when the download
succeeds, saves the record and increments success. -/
def scrapeStep (fetch : String → FetchOutcome) (dl : String → Option String)
    (st : ScrapeState) (url : String) : ScrapeState :=
  match fetch url with
  | FetchOutcome.ok page =>
    let story := parse_story page url
    let localImage :=
      match story.hero_image with
      | some h => dl h
      | none => none
    let record :=
      { story with
        hero_image :=
          match localImage with
          | some p => some p
          | none => story.hero_image }
    { summary := { st.summary with success := st.summary.success + 1 }
      saved := st.saved ++ [record] }
  | o =>
    { summary :=
        { st.summary with
          failed := st.summary.failed + 1
          errors := st.summary.errors ++ [errEntryRec url o] }
      saved := st.saved }

/-- Model of run_scrape: process every URL in order, then write the one
summary (returned here together with the saved records). -/
def run_scrape (urls : List String) (fetch : String → FetchOutcome)
    (dl : String → Option String) : ScrapeState :=
  urls.foldl (scrapeStep fetch dl) ⟨⟨urls.length, 0, 0, []⟩, []⟩

theorem filter_partition_length {α : Type} (p : α → Bool) (l : List α) :
    (l.filter p).length + (l.filter (fun x => !p x)).length = l.length := by
  induction l with
  | nil => rfl
  | cons a as ih =>
    by_cases h : p a = true
    · simp [List.filter_cons, h, ← ih]
      omega
    · simp only [List.filter_cons, h, if_neg]
      simp only [Bool.not_eq_true] at h
      simp [h, ← ih]
      omega

theorem scrapeStep_fail (fetch : String → FetchOutcome)
    (dl : String → Option String) (st : ScrapeState) (url : String)
    (h : isFetchFail (fetch url) = true) :
    scrapeStep fetch dl st url =
      ⟨{ st.summary with
          failed := st.summary.failed + 1
          errors := st.summary.errors ++ [errEntryRec url (fetch url)] },
        st.saved⟩ := by
  rcases ho : fetch url with page | r | _ | _ | _ | ⟨n, m⟩
  · rw [ho] at h
    simp [isFetchFail] at h
  all_goals simp [scrapeStep, ho]

theorem run_scrape_fold (fetch : String → FetchOutcome)
    (dl : String → Option String) (urls : List String) :
    ∀ st : ScrapeState,
      (urls.foldl (scrapeStep fetch dl) st).summary.total =
        st.summary.total ∧
      (urls.foldl (scrapeStep fetch dl) st).summary.success =
        st.summary.success +
          (urls.filter (fun u => !isFetchFail (fetch u))).length ∧
      (urls.foldl (scrapeStep fetch dl) st).summary.failed =
        st.summary.failed +
          (urls.filter (fun u => isFetchFail (fetch u))).length ∧
      (urls.foldl (scrapeStep fetch dl) st).summary.errors =
        st.summary.errors ++
          (urls.filter (fun u => isFetchFail (fetch u))).map
            (fun u => errEntryRec u (fetch u)) ∧
      (urls.foldl (scrapeStep fetch dl) st).saved.length =
        st.saved.length +
          (urls.filter (fun u => !isFetchFail (fetch u))).length := by
  induction urls with
  | nil => intro st; simp
  | cons u us ih =>
    intro st
    obtain ⟨ih1, ih2, ih3, ih4, ih5⟩ := ih (scrapeStep fetch dl st u)
    rw [List.foldl_cons] at *
    rcases ho : fetch u with page | r | _ | _ | _ | ⟨n, m⟩
    · have e1 : (scrapeStep fetch dl st u).summary.total =
          st.summary.total := by simp [scrapeStep, ho]
      have e2 : (scrapeStep fetch dl st u).summary.success =
          st.summary.success + 1 := by simp [scrapeStep, ho]
      have e3 : (scrapeStep fetch dl st u).summary.failed =
          st.summary.failed := by simp [scrapeStep, ho]
      have e4 : (scrapeStep fetch dl st u).summary.errors =
          st.summary.errors := by simp [scrapeStep, ho]
      have e5 : (scrapeStep fetch dl st u).saved.length =
          st.saved.length + 1 := by simp [scrapeStep, ho]
      have hf : isFetchFail (fetch u) = false := by simp [ho, isFetchFail]
      refine ⟨?_, ?_, ?_, ?_, ?_⟩
      · rw [ih1, e1]
      · rw [ih2, e2, List.filter_cons]
        simp only [hf, Bool.not_false, if_pos, List.length_cons]
        omega
      · rw [ih3, e3, List.filter_cons]
        simp [hf]
      · rw [ih4, e4, List.filter_cons]
        simp [hf]
      · rw [ih5, e5, List.filter_cons]
        simp only [hf, Bool.not_false, if_pos, List.length_cons]
        omega
    all_goals {
      have hf : isFetchFail (fetch u) = true := by simp [ho, isFetchFail]
      have hstep := scrapeStep_fail fetch dl st u hf
      rw [hstep] at ih1 ih2 ih3 ih4 ih5
      rw [hstep]
      refine ⟨?_, ?_, ?_, ?_, ?_⟩
      · rw [ih1]
      · rw [ih2, List.filter_cons]
        simp [hf]
      · rw [ih3, List.filter_cons]
        simp only [hf, if_pos, List.length_cons]
        show st.summary.failed + 1 + _ = _
        omega
      · rw [ih4, List.filter_cons]
        simp only [hf, if_pos, List.map_cons]
        show (st.summary.errors ++ [errEntryRec u (fetch u)]) ++ _ = _
        simp [List.append_assoc]
      · rw [ih5, List.filter_cons]
        simp [hf]
    }

/-- C6: for every URL list and every assignment of fetch outcomes, the
scrape pipeline processes every URL, produces its single run summary
with success plus failed equal to the URL count, records exactly one
structured error entry per fetch failure (and nothing else in the error
list), and saves exactly one record per success. -/
theorem claim_C6_run_scrape (urls : List String)
    (fetch : String → FetchOutcome) (dl : String → Option String) :
    (run_scrape urls fetch dl).summary.total = urls.length ∧
    (run_scrape urls fetch dl).summary.success +
      (run_scrape urls fetch dl).summary.failed = urls.length ∧
    (run_scrape urls fetch dl).summary.errors.length =
      (run_scrape urls fetch dl).summary.failed ∧
    (run_scrape urls fetch dl).summary.errors =
      (urls.filter (fun u => isFetchFail (fetch u))).map
        (fun u => errEntryRec u (fetch u)) ∧
    (run_scrape urls fetch dl).saved.length =
      (run_scrape urls fetch dl).summary.success := by
  obtain ⟨h1, h2, h3, h4, h5⟩ :=
    run_scrape_fold fetch dl urls ⟨⟨urls.length, 0, 0, []⟩, []⟩
  have hr : run_scrape urls fetch dl =
      urls.foldl (scrapeStep fetch dl) ⟨⟨urls.length, 0, 0, []⟩, []⟩ := rfl
  have hpart :=
    filter_partition_length (fun u => isFetchFail (fetch u)) urls
  refine ⟨?_, ?_, ?_, ?_, ?_⟩
  · rw [hr, h1]
  · rw [hr, h2, h3]
    simp only []
    omega
  · rw [hr, h3, h4]
    simp
  · rw [hr, h4]
    simp
  · rw [hr, h5, h2]
    rfl

/-! ## download_image extension inference (scraper.py 263-300 / run.py
254-272)

Only the extension selection is modelled; the GET, the collision loop
and the byte write are external.  ct is the lowered value the code
computes from the content-type header. -/

/-- URL scan shared by both variants: the first known extension that
occurs as a substring of the lowered image URL. -/
def firstExtInUrl (url : String) : Option String :=
  knownImageExts.find? (fun e => pyContainsStr (pyLowerStr url) e)

/-- Extension selection of scraper.py download_image: png, webp and gif
content types win outright; any other content type (jpeg included)
falls back to the URL scan; the default is .jpg. -/
def scraperDownloadExt (contentType url : String) : String :=
  let ct := pyLowerStr contentType
  if pyContainsStr ct "png" then ".png"
  else if pyContainsStr ct "webp" then ".webp"
  else if pyContainsStr ct "gif" then ".gif"
  else (firstExtInUrl url).getD ".jpg"

/-- Extension selection of run.py download_image: the content-type
gives a provisional extension, but the URL scan always runs and
overrides it whenever the URL contains a known extension. -/
def runDownloadExt (contentType url : String) : String :=
  let ct := pyLowerStr contentType
  let ext :=
    if pyContainsStr ct "png" then ".png"
    else if pyContainsStr ct "webp" then ".webp"
    else if pyContainsStr ct "gif" then ".gif"
    else ".jpg"
  (firstExtInUrl url).getD ext

/-- Counterexample to C7 as stated: in scraper.py a jpeg content type
is not recognized, so the URL is scanned although the content type
identifies a known image type, and a png URL wins; in run.py the URL
scan overrides even a recognized png content type. -/
theorem claim_C7_counterexample :
    scraperDownloadExt "image/jpeg" "https://x/a.png" = ".png" ∧
    runDownloadExt "image/png" "https://x/a.jpg" = ".jpg" := by
  exact ⟨by decide, by decide⟩

/-- C7 as amended: the content type decides the extension only for png,
webp and gif; in scraper.py the URL is scanned exactly when the content
type matches none of these three, and the result is the first known
extension occurring in the URL, else the default .jpg; in run.py the
URL scan always runs and its result overrides the content type, which
only supplies the fallback. -/
theorem claim_C7_download_ext_amended (contentType url : String) :
    (pyContainsStr (pyLowerStr contentType) "png" = true →
      scraperDownloadExt contentType url = ".png") ∧
    (pyContainsStr (pyLowerStr contentType) "png" = false →
      pyContainsStr (pyLowerStr contentType) "webp" = true →
      scraperDownloadExt contentType url = ".webp") ∧
    (pyContainsStr (pyLowerStr contentType) "png" = false →
      pyContainsStr (pyLowerStr contentType) "webp" = false →
      pyContainsStr (pyLowerStr contentType) "gif" = true →
      scraperDownloadExt contentType url = ".gif") ∧
    (pyContainsStr (pyLowerStr contentType) "png" = false →
      pyContainsStr (pyLowerStr contentType) "webp" = false →
      pyContainsStr (pyLowerStr contentType) "gif" = false →
      scraperDownloadExt contentType url = (firstExtInUrl url).getD ".jpg") ∧
    (∀ e, firstExtInUrl url = some e → runDownloadExt contentType url = e) ∧
    (firstExtInUrl url = none →
      runDownloadExt contentType url = scraperDownloadExt contentType url) := by
  refine ⟨?_, ?_, ?_, ?_, ?_, ?_⟩
  · intro h
    simp [scraperDownloadExt, h]
  · intro h1 h2
    simp [scraperDownloadExt, h1, h2]
  · intro h1 h2 h3
    simp [scraperDownloadExt, h1, h2, h3]
  · intro h1 h2 h3
    simp [scraperDownloadExt, h1, h2, h3]
  · intro e he
    simp [runDownloadExt, he]
  · intro he
    simp [runDownloadExt, scraperDownloadExt, he]

/-- Witness for the amended C7 at concrete headers and URLs. -/
theorem claim_C7_download_ext_amended_witness :
    scraperDownloadExt "image/gif" "https://x/pic" = ".gif" ∧
    runDownloadExt "image/gif" "https://x/a.webp" = ".webp" :=
  ⟨(claim_C7_download_ext_amended "image/gif" "https://x/pic").2.2.1
      (by decide) (by decide) (by decide),
   (claim_C7_download_ext_amended "image/gif" "https://x/a.webp").2.2.2.2.1
      ".webp" (by decide)⟩

/-! ## Claims about normalize_url (C5) -/

/-- Counterexample to C5 as stated: a scheme-less input such as foo
normalizes to ://foo, which re-normalizes to ://%3A//foo; and an input
whose authority ends in whitespace before a fragment normalizes to a
string with trailing whitespace, which the second pass strips. -/
theorem claim_C5_counterexample :
    normalize_url (normalize_url "foo" "https://example.com")
        "https://example.com" ≠
      normalize_url "foo" "https://example.com" ∧
    normalize_url (normalize_url "https://h #f" "https://example.com")
        "https://example.com" ≠
      normalize_url "https://h #f" "https://example.com" := by
  exact ⟨by decide, by decide⟩

theorem pyLowerChar_idem (c : Char) :
    pyLowerChar (pyLowerChar c) = pyLowerChar c := by
  have h := asciiUpper_pyLowerChar c
  unfold pyLowerChar at *
  rw [if_neg (by simp [h])]

theorem asciiAlpha_pyLowerChar (c : Char) (h : asciiAlpha c = true) :
    asciiAlpha (pyLowerChar c) = true := by
  unfold pyLowerChar
  split
  · rename_i hu
    simp only [asciiUpper, Bool.and_eq_true, decide_eq_true_eq] at hu
    have hv : c.toNat + 32 < 55296 := by omega
    simp only [asciiAlpha, asciiLower, asciiUpper, toNat_charOfNat _ hv,
      Bool.or_eq_true, Bool.and_eq_true, decide_eq_true_eq]
    omega
  · exact h

theorem schemeChar_pyLowerChar (c : Char) (h : schemeChar c = true) :
    schemeChar (pyLowerChar c) = true := by
  unfold pyLowerChar
  split
  · rename_i hu
    simp only [asciiUpper, Bool.and_eq_true, decide_eq_true_eq] at hu
    have hv : c.toNat + 32 < 55296 := by omega
    simp only [schemeChar, asciiAlnum, asciiAlpha, asciiLower, asciiUpper,
      asciiDigit, toNat_charOfNat _ hv, Bool.or_eq_true, Bool.and_eq_true,
      decide_eq_true_eq]
    omega
  · exact h

theorem pyWsChar_cases (c : Char) (h : pyWsChar c = true) :
    c = ' ' ∨ c = '\t' ∨ c = '\n' ∨ c = '\r' ∨
    c = Char.ofNat 11 ∨ c = Char.ofNat 12 ∨ c = Char.ofNat 160 := by
  have h2 := h
  simp only [pyWsChar, Bool.or_eq_true, decide_eq_true_eq] at h2
  tauto

theorem asciiAlpha_not_ws (c : Char) (h : asciiAlpha c = true) :
    pyWsChar c = false := by
  by_contra hw
  simp only [Bool.not_eq_false] at hw
  rcases pyWsChar_cases c hw with rfl | rfl | rfl | rfl | rfl | rfl | rfl <;>
    simp [asciiAlpha, asciiUpper, asciiLower] at h

theorem asciiAlpha_gt32 (c : Char) (h : asciiAlpha c = true) :
    ¬(c.toNat ≤ 32) := by
  simp only [asciiAlpha, asciiUpper, asciiLower, Bool.or_eq_true,
    Bool.and_eq_true, decide_eq_true_eq] at h
  omega

theorem asciiAlpha_ne_slash (c : Char) (h : asciiAlpha c = true) :
    ¬(c = '/') := by
  intro h2
  subst h2
  simp [asciiAlpha, asciiUpper, asciiLower] at h

theorem schemeChar_ne_colon (c : Char) (h : schemeChar c = true) :
    ¬(c = ':') := by
  intro h2
  subst h2
  simp [schemeChar, asciiAlnum, asciiAlpha, asciiUpper, asciiLower,
    asciiDigit] at h

theorem schemeChar_not_unsafe (c : Char) (h : schemeChar c = true) :
    ¬(c = '\t' ∨ c = '\r' ∨ c = '\n') := by
  rintro (rfl | rfl | rfl) <;>
    simp [schemeChar, asciiAlnum, asciiAlpha, asciiUpper, asciiLower,
      asciiDigit] at h

theorem hexChar_alwaysSafe (m : Nat) : alwaysSafe (hexChar m) = true := by
  unfold hexChar
  split <;> decide

theorem utf8Bytes_ne_nil (c : Char) : utf8Bytes c ≠ [] := by
  unfold utf8Bytes
  dsimp only
  split
  · simp
  · split
    · simp
    · split <;> simp

theorem pyQuote_ne_nil (l : List Char) (S : List Char) (h : l ≠ []) :
    pyQuote l S ≠ [] := by
  rcases l with _ | ⟨c, cs⟩
  · exact absurd rfl h
  · simp only [pyQuote, List.flatMap_cons]
    split
    · simp
    · intro hcontra
      rw [List.append_eq_nil] at hcontra
      have h1 := hcontra.1
      rcases hb : utf8Bytes c with _ | ⟨b, bs⟩
      · exact utf8Bytes_ne_nil c hb
      · rw [hb] at h1
        simp [percentEncodeByte] at h1

theorem mem_pyQuote (l S : List Char) (c : Char) (h : c ∈ pyQuote l S) :
    alwaysSafe c = true ∨ S.any (fun d => d = c) = true ∨ c = '%' := by
  simp only [pyQuote, List.mem_flatMap] at h
  obtain ⟨d, hd, hc⟩ := h
  split at hc
  · rename_i hcond
    simp only [List.mem_singleton] at hc
    subst hc
    rcases Bool.or_eq_true_iff.mp hcond with h1 | h1
    · exact Or.inl h1
    · exact Or.inr (Or.inl h1)
  · simp only [List.mem_flatMap] at hc
    obtain ⟨b, hb, hcb⟩ := hc
    simp only [percentEncodeByte, List.mem_cons, List.mem_singleton,
      List.not_mem_nil, or_false] at hcb
    rcases hcb with rfl | rfl | rfl
    · exact Or.inr (Or.inr rfl)
    · exact Or.inl (hexChar_alwaysSafe _)
    · exact Or.inl (hexChar_alwaysSafe _)

theorem pyQuote_eq_self (l S : List Char)
    (h : ∀ c ∈ l, (alwaysSafe c || S.any (fun d => d = c)) = true) :
    pyQuote l S = l := by
  induction l with
  | nil => rfl
  | cons c cs ih =>
    simp only [pyQuote, List.flatMap_cons]
    rw [if_pos (h c (List.mem_cons_self _ _))]
    have := ih (fun d hd => h d (List.mem_cons_of_mem c hd))
    simp only [pyQuote] at this
    rw [this]
    rfl

theorem mem_pyQuote_closed (l S : List Char)
    (hpc : S.any (fun d => d = '%') = true) :
    ∀ c ∈ pyQuote l S, (alwaysSafe c || S.any (fun d => d = c)) = true := by
  intro c hc
  rcases mem_pyQuote l S c hc with h | h | rfl
  · simp [h]
  · simp [h]
  · simp [hpc]

theorem pyQuote_idem (l S : List Char)
    (hpc : S.any (fun d => d = '%') = true) :
    pyQuote (pyQuote l S) S = pyQuote l S :=
  pyQuote_eq_self _ S (mem_pyQuote_closed l S hpc)

/-- Facts about every character a path or query quote can output, for a
safe set drawn from the two sets normalize_url uses. -/
theorem quoteOut_facts (S : List Char) (c : Char)
    (hS : S = pathSafe ∨ S = querySafe)
    (h : (alwaysSafe c || S.any (fun d => d = c)) = true) :
    ¬(c = '#') ∧ ¬(c = '?') ∧ ¬(c = ':') ∧ pyWsChar c = false ∧
      ¬(c = '\t' ∨ c = '\r' ∨ c = '\n') := by
  have hws : pyWsChar c = false := by
    by_contra hw
    simp only [Bool.not_eq_false] at hw
    rcases pyWsChar_cases c hw with rfl | rfl | rfl | rfl | rfl | rfl | rfl <;>
      rcases hS with rfl | rfl <;> simp_all [alwaysSafe, asciiAlnum,
        asciiAlpha, asciiUpper, asciiLower, asciiDigit, pathSafe, querySafe]
  refine ⟨?_, ?_, ?_, hws, ?_⟩
  · rintro rfl
    rcases hS with rfl | rfl <;> simp_all [alwaysSafe, asciiAlnum,
      asciiAlpha, asciiUpper, asciiLower, asciiDigit, pathSafe, querySafe]
  · rintro rfl
    rcases hS with rfl | rfl <;> simp_all [alwaysSafe, asciiAlnum,
      asciiAlpha, asciiUpper, asciiLower, asciiDigit, pathSafe, querySafe]
  · rintro rfl
    rcases hS with rfl | rfl <;> simp_all [alwaysSafe, asciiAlnum,
      asciiAlpha, asciiUpper, asciiLower, asciiDigit, pathSafe, querySafe]
  · rintro (rfl | rfl | rfl) <;> simp_all [pyWsChar]

theorem mem_takeWhileP {p : Char → Bool} {l : List Char} {c : Char}
    (h : c ∈ l.takeWhile p) : p c = true ∧ c ∈ l := by
  induction l with
  | nil => simp at h
  | cons a as ih =>
    rw [List.takeWhile_cons] at h
    split at h
    · rename_i ha
      rw [List.mem_cons] at h
      rcases h with rfl | h
      · exact ⟨ha, List.mem_cons_self _ _⟩
      · obtain ⟨h1, h2⟩ := ih h
        exact ⟨h1, List.mem_cons_of_mem a h2⟩
    · simp at h

theorem takeWhile_append_all {p : Char → Bool} {l₁ : List Char}
    (l₂ : List Char) (h : ∀ c ∈ l₁, p c = true) :
    (l₁ ++ l₂).takeWhile p = l₁ ++ l₂.takeWhile p := by
  induction l₁ with
  | nil => simp
  | cons a as ih =>
    rw [List.cons_append, List.takeWhile_cons,
      if_pos (h a (List.mem_cons_self _ _)),
      ih (fun c hc => h c (List.mem_cons_of_mem a hc)), List.cons_append]

theorem dropWhile_append_all {p : Char → Bool} {l₁ : List Char}
    (l₂ : List Char) (h : ∀ c ∈ l₁, p c = true) :
    (l₁ ++ l₂).dropWhile p = l₂.dropWhile p := by
  induction l₁ with
  | nil => simp
  | cons a as ih =>
    rw [List.cons_append, List.dropWhile_cons,
      if_pos (by simpa using h a (List.mem_cons_self _ _))]
    exact ih (fun c hc => h c (List.mem_cons_of_mem a hc))

theorem takeWhile_append_of_drop_ne_nil {p : Char → Bool} {l : List Char}
    (X : List Char) (h : l.dropWhile p ≠ []) :
    (l ++ X).takeWhile p = l.takeWhile p ∧
    (l ++ X).dropWhile p = l.dropWhile p ++ X := by
  induction l with
  | nil => simp at h
  | cons a as ih =>
    by_cases ha : p a = true
    · rw [List.cons_append, List.takeWhile_cons, if_pos ha,
        List.dropWhile_cons, if_pos (by simpa using ha)]
      rw [List.dropWhile_cons, if_pos (by simpa using ha)] at h
      obtain ⟨h1, h2⟩ := ih h
      rw [h1, h2, List.takeWhile_cons, if_pos ha,
        List.dropWhile_cons, if_pos (by simpa using ha)]
      exact ⟨rfl, rfl⟩
    · rw [List.cons_append, List.takeWhile_cons, if_neg ha,
        List.dropWhile_cons, if_neg (by simpa using ha),
        List.takeWhile_cons, if_neg ha, List.dropWhile_cons,
        if_neg (by simpa using ha), List.cons_append]
      exact ⟨rfl, rfl⟩

theorem splitOnFirst_of_not_mem (ch : Char) (l : List Char)
    (h : ∀ c ∈ l, ¬(c = ch)) : splitOnFirst ch l = (l, []) := by
  unfold splitOnFirst
  rw [if_neg]
  simp only [List.any_eq_true, decide_eq_true_eq, not_exists, not_and]
  exact h

theorem splitOnFirst_append (ch : Char) (l₁ l₂ : List Char)
    (h : ∀ c ∈ l₁, ¬(c = ch)) :
    splitOnFirst ch (l₁ ++ ch :: l₂) = (l₁, l₂) := by
  have hany : (l₁ ++ ch :: l₂).any (fun c => decide (c = ch)) = true := by
    simp only [List.any_eq_true, decide_eq_true_eq]
    exact ⟨ch, by simp, rfl⟩
  unfold splitOnFirst
  rw [if_pos hany]
  simp only [Prod.mk.injEq]
  constructor
  · rw [takeWhile_append_all (ch :: l₂) (by intro c hc; simp [h c hc])]
    rw [List.takeWhile_cons, if_neg (by simp)]
    simp
  · rw [dropWhile_append_all (ch :: l₂) (by intro c hc; simp [h c hc])]
    rw [List.dropWhile_cons, if_neg (by simp)]
    rfl

theorem rstripP_eq_self_of_last (p : Char → Bool) (l : List Char)
    (c : Char) (hl : l.getLast? = some c) (hc : p c = false) :
    rstripP p l = l := by
  induction l with
  | nil => simp at hl
  | cons a as ih =>
    rcases has : as with _ | ⟨b, bs⟩
    · subst has
      simp only [List.getLast?_singleton, Option.some.injEq] at hl
      subst hl
      simp [rstripP, hc]
    · subst has
      rw [List.getLast?_cons_cons] at hl
      have hr := ih hl
      show (if (rstripP p (b :: bs)).isEmpty && p a then []
        else a :: rstripP p (b :: bs)) = a :: b :: bs
      rw [hr]
      simp

theorem filter_all_eq_self (p : Char → Bool) (l : List Char)
    (h : ∀ c ∈ l, p c = true) : l.filter p = l := by
  induction l with
  | nil => rfl
  | cons a as ih =>
    rw [List.filter_cons, if_pos (h a (List.mem_cons_self _ _))]
    rw [ih (fun c hc => h c (List.mem_cons_of_mem a hc))]

theorem splitScheme_valid (l s rest : List Char)
    (h : splitScheme l = some (s, rest)) :
    s ≠ [] ∧ (∀ c, s.head? = some c → asciiAlpha c = true) ∧
    (∀ c ∈ s, schemeChar c = true) ∧ s.map pyLowerChar = s := by
  unfold splitScheme at h
  dsimp only at h
  split at h
  · rename_i hcond
    simp only [Option.some.injEq, Prod.mk.injEq] at h
    obtain ⟨hs, hrest⟩ := h
    simp only [Bool.and_eq_true] at hcond
    obtain ⟨⟨⟨hlen, hne⟩, hhead⟩, hall⟩ := hcond
    subst hs
    rcases hpre : List.takeWhile (fun c => !decide (c = ':')) l
        with _ | ⟨c0, cs⟩
    · rw [hpre] at hne
      simp at hne
    · rw [hpre] at hhead hall
      refine ⟨by simp, ?_, ?_, ?_⟩
      · intro c hc
        simp only [List.map_cons, List.head?_cons, Option.some.injEq] at hc
        subst hc
        exact asciiAlpha_pyLowerChar c0 (by simpa using hhead)
      · intro c hc
        rw [List.mem_map] at hc
        obtain ⟨d, hd, hdc⟩ := hc
        subst hdc
        rw [List.all_eq_true] at hall
        exact schemeChar_pyLowerChar d (by simpa using hall d hd)
      · rw [List.map_map]
        apply List.map_congr_left
        intro d hd
        exact pyLowerChar_idem d
  · cases h

theorem splitScheme_rest_subset (l s rest : List Char)
    (h : splitScheme l = some (s, rest)) : ∀ c ∈ rest, c ∈ l := by
  unfold splitScheme at h
  dsimp only at h
  split at h
  · simp only [Option.some.injEq, Prod.mk.injEq] at h
    obtain ⟨hs, hrest⟩ := h
    intro c hc
    rw [← hrest] at hc
    exact List.drop_subset _ _ hc
  · cases h

theorem mem_urlsplitClean_not_unsafe (url : List Char) (c : Char)
    (h : c ∈ urlsplitClean url) : ¬(c = '\t' ∨ c = '\r' ∨ c = '\n') := by
  unfold urlsplitClean removeUnsafeUrlChars at h
  rw [List.mem_filter] at h
  have h2 := h.2
  simp only [Bool.not_eq_true', Bool.or_eq_false_iff,
    decide_eq_false_iff_not] at h2
  tauto

theorem urlsplitSchemeRest_snd_subset (url : List Char) (c : Char)
    (h : c ∈ (urlsplitSchemeRest url).2) : c ∈ urlsplitClean url := by
  rcases hsr : splitScheme (urlsplitClean url) with _ | ⟨s, r⟩
  · have he : (urlsplitSchemeRest url).2 = urlsplitClean url := by
      unfold urlsplitSchemeRest
      rw [hsr]
    rw [he] at h
    exact h
  · have he : (urlsplitSchemeRest url).2 = r := by
      unfold urlsplitSchemeRest
      rw [hsr]
    rw [he] at h
    exact splitScheme_rest_subset (urlsplitClean url) s r hsr c h

theorem pyUrlsplit_scheme_eq (url : List Char) :
    (pyUrlsplit url).scheme = (urlsplitSchemeRest url).1 := rfl

theorem pyUrlsplit_scheme_valid (url : List Char)
    (h : (pyUrlsplit url).scheme ≠ []) :
    (∀ c, (pyUrlsplit url).scheme.head? = some c → asciiAlpha c = true) ∧
    (∀ c ∈ (pyUrlsplit url).scheme, schemeChar c = true) ∧
    (pyUrlsplit url).scheme.map pyLowerChar = (pyUrlsplit url).scheme := by
  rcases hsr : splitScheme (urlsplitClean url) with _ | ⟨s, r⟩
  · have he : (pyUrlsplit url).scheme = [] := by
      rw [pyUrlsplit_scheme_eq]
      unfold urlsplitSchemeRest
      rw [hsr]
    exact absurd he h
  · have he : (pyUrlsplit url).scheme = s := by
      rw [pyUrlsplit_scheme_eq]
      unfold urlsplitSchemeRest
      rw [hsr]
    obtain ⟨h1, h2, h3, h4⟩ := splitScheme_valid (urlsplitClean url) s r hsr
    rw [he]
    exact ⟨h2, h3, h4⟩

theorem pyUrlsplit_netloc_props (url : List Char) :
    (∀ c ∈ (pyUrlsplit url).netloc, netlocDelim c = false) ∧
    (∀ c ∈ (pyUrlsplit url).netloc, ¬(c = '\t' ∨ c = '\r' ∨ c = '\n')) := by
  have hn : (pyUrlsplit url).netloc =
      if (urlsplitSchemeRest url).2.take 2 = ['/', '/'] then
        ((urlsplitSchemeRest url).2.drop 2).takeWhile
          (fun c => !netlocDelim c)
      else [] := rfl
  rw [hn]
  split
  · constructor
    · intro c hc
      have := (mem_takeWhileP hc).1
      simpa using this
    · intro c hc
      have hmem := (mem_takeWhileP hc).2
      have hmem2 : c ∈ (urlsplitSchemeRest url).2 :=
        List.drop_subset _ _ hmem
      exact mem_urlsplitClean_not_unsafe url c
        (urlsplitSchemeRest_snd_subset url c hmem2)
  · constructor <;> intro c hc <;> simp at hc

theorem getLast?_cons_ne_none (d : Char) (ds : List Char) :
    (d :: ds).getLast? ≠ none := by
  induction ds generalizing d with
  | nil => simp
  | cons e es ih =>
    rw [List.getLast?_cons_cons]
    exact ih e

theorem getLast?_append_right (l₁ l₂ : List Char) (h : l₂ ≠ []) :
    (l₁ ++ l₂).getLast? = l₂.getLast? := by
  rw [List.getLast?_append]
  rcases l₂ with _ | ⟨d, ds⟩
  · exact absurd rfl h
  · rcases hl : (d :: ds).getLast? with _ | x
    · exact absurd hl (getLast?_cons_ne_none d ds)
    · simp [Option.or]

theorem urlsplit_assembled (s n X : List Char)
    (hs1 : s ≠ [])
    (hs2 : ∀ c, s.head? = some c → asciiAlpha c = true)
    (hs3 : ∀ c ∈ s, schemeChar c = true)
    (hs4 : s.map pyLowerChar = s)
    (hn1 : ∀ c ∈ n, netlocDelim c = false)
    (hn2 : ∀ c ∈ n, ¬(c = '\t' ∨ c = '\r' ∨ c = '\n'))
    (hX1 : ∀ c ∈ X, ¬(c = '\t' ∨ c = '\r' ∨ c = '\n')) :
    pyUrlsplit (s ++ ':' :: '/' :: '/' :: (n ++ X)) =
      ⟨s, n ++ (X.takeWhile (fun c => !netlocDelim c)),
        (splitOnFirst '?'
          ((splitOnFirst '#'
            (X.dropWhile (fun c => !netlocDelim c))).1)).1,
        (splitOnFirst '?'
          ((splitOnFirst '#'
            (X.dropWhile (fun c => !netlocDelim c))).1)).2,
        (splitOnFirst '#' (X.dropWhile (fun c => !netlocDelim c))).2⟩ := by
  obtain ⟨c0, s', rfl⟩ : ∃ c0 s', s = c0 :: s' := by
    rcases s with _ | ⟨c0, s'⟩
    · exact absurd rfl hs1
    · exact ⟨c0, s', rfl⟩
  have hc0 : asciiAlpha c0 = true := hs2 c0 rfl
  set o := (c0 :: s') ++ ':' :: '/' :: '/' :: (n ++ X) with ho
  have hoc : o = c0 :: (s' ++ ':' :: '/' :: '/' :: (n ++ X)) := by
    rw [ho]
    rfl
  have hclean : urlsplitClean o = o := by
    unfold urlsplitClean whatwgLstrip
    rw [hoc, List.dropWhile_cons,
      if_neg (by simpa using asciiAlpha_gt32 c0 hc0)]
    rw [← hoc]
    unfold removeUnsafeUrlChars
    apply filter_all_eq_self
    intro c hc
    have hne : ¬(c = '\t' ∨ c = '\r' ∨ c = '\n') := by
      rw [ho] at hc
      rcases List.mem_append.1 hc with hm | hm
      · exact schemeChar_not_unsafe c (hs3 c hm)
      · simp only [List.mem_cons, List.mem_append] at hm
        rcases hm with rfl | rfl | rfl | hm2 | hm2
        · rintro (h | h | h) <;> cases h
        · rintro (h | h | h) <;> cases h
        · rintro (h | h | h) <;> cases h
        · exact hn2 c hm2
        · exact hX1 c hm2
    simp only [Bool.not_eq_true', Bool.or_eq_false_iff,
      decide_eq_false_iff_not]
    tauto
  have hpre : List.takeWhile (fun c => !decide (c = ':')) o = c0 :: s' := by
    rw [ho]
    rw [takeWhile_append_all _ (by
      intro c hc
      simp only [Bool.not_eq_true', decide_eq_false_iff_not]
      exact schemeChar_ne_colon c (hs3 c hc))]
    rw [List.takeWhile_cons, if_neg (by simp)]
    simp
  have hdrop : o.drop ((c0 :: s').length + 1) =
      '/' :: '/' :: (n ++ X) := by
    rw [ho, ← List.drop_drop, List.drop_left]
    rfl
  have hscheme : splitScheme o = some (c0 :: s', '/' :: '/' :: (n ++ X)) := by
    unfold splitScheme
    dsimp only
    rw [hpre]
    rw [if_pos]
    · rw [hs4, hdrop]
    · simp only [Bool.and_eq_true]
      refine ⟨⟨⟨?_, by simp⟩, by simpa using hc0⟩, ?_⟩
      · simp only [decide_eq_true_eq]
        rw [ho]
        simp only [List.length_append, List.length_cons]
        omega
      · rw [List.all_eq_true]
        exact hs3
  have hsr : urlsplitSchemeRest o = (c0 :: s', '/' :: '/' :: (n ++ X)) := by
    unfold urlsplitSchemeRest
    rw [hclean, hscheme]
  have htw : (n ++ X).takeWhile (fun c => !netlocDelim c) =
      n ++ X.takeWhile (fun c => !netlocDelim c) := by
    apply takeWhile_append_all
    intro c hc
    simp [hn1 c hc]
  have hdw : (n ++ X).dropWhile (fun c => !netlocDelim c) =
      X.dropWhile (fun c => !netlocDelim c) := by
    apply dropWhile_append_all
    intro c hc
    simp [hn1 c hc]
  show pyUrlsplit o = _
  unfold pyUrlsplit
  rw [hsr]
  dsimp only
  simp only [List.take_succ_cons, List.take_zero, List.drop_succ_cons,
    List.drop_zero, reduceIte]
  rw [htw, hdw]

theorem mem_of_getLastCh (l : List Char) (c : Char)
    (h : l.getLast? = some c) : c ∈ l := by
  induction l with
  | nil => simp at h
  | cons a as ih =>
    rw [List.getLast?_cons] at h
    rcases has : as.getLast? with _ | x <;> rw [has] at h <;>
      simp only [Option.getD_none, Option.getD_some,
        Option.some.injEq] at h
    · exact h ▸ List.mem_cons_self a as
    · exact List.mem_cons_of_mem a (ih (h ▸ has))

theorem getLast?_cons_ne (a : Char) (l : List Char) (h : l ≠ []) :
    (a :: l).getLast? = l.getLast? := by
  rcases l with _ | ⟨x, xs⟩
  · exact absurd rfl h
  · rw [List.getLast?_cons_cons]

theorem getLast?_cons3 (a b c : Char) (l : List Char) (h : l ≠ []) :
    (a :: b :: c :: l).getLast? = l.getLast? := by
  rw [getLast?_cons_ne a _ (by simp), getLast?_cons_ne b _ (by simp),
    getLast?_cons_ne c _ h]

/-- One full pass of normalize_url fixes a url of the assembled shape,
given digested facts about its pieces. -/
theorem normCore_step (c0 : Char) (s' n X b : List Char)
    (hc0 : asciiAlpha c0 = true)
    (hs3 : ∀ c ∈ c0 :: s', schemeChar c = true)
    (hs4 : (c0 :: s').map pyLowerChar = c0 :: s')
    (hn1 : ∀ c ∈ n, netlocDelim c = false)
    (hn2 : ∀ c ∈ n, ¬(c = '\t' ∨ c = '\r' ∨ c = '\n'))
    (hX1 : ∀ c ∈ X, ¬(c = '\t' ∨ c = '\r' ∨ c = '\n'))
    (hlast : ∀ c,
      ((c0 :: s') ++ ':' :: '/' :: '/' :: (n ++ X)).getLast? = some c →
      pyWsChar c = false)
    (hXhead : X = [] ∨ ∃ e t, X = e :: t ∧ netlocDelim e = true)
    (hsplit : assembleNorm (c0 :: s') n
        (pyQuote (splitOnFirst '?' ((splitOnFirst '#' X).1)).1 pathSafe)
        (pyQuote (splitOnFirst '?' ((splitOnFirst '#' X).1)).2 querySafe) =
      (c0 :: s') ++ ':' :: '/' :: '/' :: (n ++ X)) :
    normCore ((c0 :: s') ++ ':' :: '/' :: '/' :: (n ++ X)) b =
      (c0 :: s') ++ ':' :: '/' :: '/' :: (n ++ X) := by
  set o := (c0 :: s') ++ ':' :: '/' :: '/' :: (n ++ X) with ho
  have hoc : o = c0 :: (s' ++ ':' :: '/' :: '/' :: (n ++ X)) := by
    rw [ho]
    rfl
  have honil : o.isEmpty = false := by
    rw [hoc]
    rfl
  have hstrip : pyStrip o = o := by
    unfold pyStrip stripP
    have hd : o.dropWhile pyWsChar = o := by
      rw [hoc, List.dropWhile_cons,
        if_neg (by simp [asciiAlpha_not_ws c0 hc0])]
    rw [hd]
    rcases hgl : o.getLast? with _ | c
    · rw [hoc] at hgl
      exact absurd hgl (getLast?_cons_ne_none _ _)
    · exact rstripP_eq_self_of_last pyWsChar o c hgl (hlast c hgl)
  have htake2 : ¬(o.take 2 = ['/', '/']) := by
    rw [hoc]
    intro h
    rw [List.take_succ_cons] at h
    injection h with h1 _
    exact asciiAlpha_ne_slash c0 hc0 h1
  have htake1 : ¬(o.take 1 = ['/']) := by
    rw [hoc]
    intro h
    rw [List.take_succ_cons] at h
    injection h with h1 _
    exact asciiAlpha_ne_slash c0 hc0 h1
  have hpre : preNormalize o b = o := by
    unfold preNormalize
    dsimp only
    rw [hstrip, if_neg htake2, if_neg htake1]
  have hus := urlsplit_assembled (c0 :: s') n X (by simp)
    (fun c hc => by
      simp only [List.head?_cons, Option.some.injEq] at hc
      exact hc ▸ hc0)
    hs3 hs4 hn1 hn2 hX1
  have htwX : X.takeWhile (fun c => !netlocDelim c) = [] := by
    rcases hXhead with rfl | ⟨e, t, rfl, he⟩
    · rfl
    · rw [List.takeWhile_cons, if_neg (by simp [he])]
  have hdwX : X.dropWhile (fun c => !netlocDelim c) = X := by
    rcases hXhead with rfl | ⟨e, t, rfl, he⟩
    · rfl
    · rw [List.dropWhile_cons, if_neg (by simp [he])]
  unfold normCore
  rw [if_neg (by simp [honil])]
  dsimp only
  rw [hpre, ho, hus]
  dsimp only
  rw [htwX, hdwX, List.append_nil]
  exact hsplit

/-- normalize_url fixes any url assembled from a valid lowered scheme, a
delimiter-free authority and already-quoted path and query, provided the
quoted path is empty or rooted and no whitespace ends the authority when
it ends the url. -/
theorem normCore_fixpoint (s n QP QQ b : List Char)
    (hs1 : s ≠ [])
    (hs2 : ∀ c, s.head? = some c → asciiAlpha c = true)
    (hs3 : ∀ c ∈ s, schemeChar c = true)
    (hs4 : s.map pyLowerChar = s)
    (hn1 : ∀ c ∈ n, netlocDelim c = false)
    (hn2 : ∀ c ∈ n, ¬(c = '\t' ∨ c = '\r' ∨ c = '\n'))
    (hQPmem : ∀ c ∈ QP,
      (alwaysSafe c || pathSafe.any (fun d => d = c)) = true)
    (hQQmem : ∀ c ∈ QQ,
      (alwaysSafe c || querySafe.any (fun d => d = c)) = true)
    (hQPq : pyQuote QP pathSafe = QP)
    (hQQq : pyQuote QQ querySafe = QQ)
    (hp0 : QP = [] ∨ QP.head? = some '/')
    (hw : QP = [] → QQ = [] → ∀ c, n.getLast? = some c →
      pyWsChar c = false) :
    normCore (assembleNorm s n QP QQ) b = assembleNorm s n QP QQ := by
  obtain ⟨c0, s', rfl⟩ : ∃ c0 s', s = c0 :: s' := by
    rcases s with _ | ⟨c0, s'⟩
    · exact absurd rfl hs1
    · exact ⟨c0, s', rfl⟩
  have hc0 : asciiAlpha c0 = true := hs2 c0 rfl
  have hQPf : ∀ c ∈ QP, ¬(c = '#') ∧ ¬(c = '?') ∧ ¬(c = ':') ∧
      pyWsChar c = false ∧ ¬(c = '\t' ∨ c = '\r' ∨ c = '\n') :=
    fun c hc => quoteOut_facts pathSafe c (Or.inl rfl) (hQPmem c hc)
  have hQQf : ∀ c ∈ QQ, ¬(c = '#') ∧ ¬(c = '?') ∧ ¬(c = ':') ∧
      pyWsChar c = false ∧ ¬(c = '\t' ∨ c = '\r' ∨ c = '\n') :=
    fun c hc => quoteOut_facts querySafe c (Or.inr rfl) (hQQmem c hc)
  rcases QQ with _ | ⟨d, ds⟩
  · have hA : assembleNorm (c0 :: s') n QP [] =
        (c0 :: s') ++ ':' :: '/' :: '/' :: (n ++ QP) := by
      simp [assembleNorm]
    rw [hA]
    apply normCore_step c0 s' n QP b hc0 hs3 hs4 hn1 hn2
    · exact fun c hc => (hQPf c hc).2.2.2.2
    · intro c hgl
      rw [getLast?_append_right _ _ (by simp)] at hgl
      rcases hQPc : QP with _ | ⟨e, es⟩
      · rw [hQPc] at hgl
        rcases hnc : n with _ | ⟨f, fs⟩
        · rw [hnc] at hgl
          have h2 : ((':' :: '/' :: '/' ::
              (([] : List Char) ++ [])) : List Char).getLast? =
              some '/' := by decide
          rw [h2] at hgl
          injection hgl with h3
          rw [← h3]
          decide
        · rw [hnc] at hgl
          rw [getLast?_cons3 _ _ _ _ (by simp)] at hgl
          rw [List.append_nil] at hgl
          rw [← hnc] at hgl
          exact hw hQPc rfl c hgl
      · rw [hQPc] at hgl
        rw [getLast?_cons3 _ _ _ _ (by simp)] at hgl
        rw [getLast?_append_right n _ (by simp)] at hgl
        rw [← hQPc] at hgl
        exact (hQPf c (mem_of_getLastCh _ c hgl)).2.2.2.1
    · rcases hp0 with rfl | hh
      · exact Or.inl rfl
      · rcases hQPc : QP with _ | ⟨e, es⟩
        · exact Or.inl rfl
        · rw [hQPc] at hh
          simp only [List.head?_cons, Option.some.injEq] at hh
          refine Or.inr ⟨e, es, rfl, ?_⟩
          rw [hh]
          decide
    · rw [splitOnFirst_of_not_mem '#' QP (fun c hc => (hQPf c hc).1)]
      dsimp only
      rw [splitOnFirst_of_not_mem '?' QP (fun c hc => (hQPf c hc).2.1)]
      dsimp only
      rw [hQPq]
      simp [assembleNorm, pyQuote]
  · have hB : assembleNorm (c0 :: s') n QP (d :: ds) =
        (c0 :: s') ++ ':' :: '/' :: '/' ::
          (n ++ (QP ++ '?' :: d :: ds)) := by
      simp [assembleNorm]
    rw [hB]
    apply normCore_step c0 s' n (QP ++ '?' :: d :: ds) b hc0 hs3 hs4 hn1 hn2
    · intro c hc
      rcases List.mem_append.1 hc with hm | hm
      · exact (hQPf c hm).2.2.2.2
      · rcases List.mem_cons.1 hm with rfl | hm2
        · decide
        · exact (hQQf c hm2).2.2.2.2
    · intro c hgl
      rw [getLast?_append_right _ _ (by simp)] at hgl
      rw [getLast?_cons3 _ _ _ _ (by simp)] at hgl
      rw [getLast?_append_right n _ (by simp)] at hgl
      rw [getLast?_append_right QP _ (by simp)] at hgl
      rw [getLast?_cons_ne '?' (d :: ds) (by simp)] at hgl
      exact (hQQf c (mem_of_getLastCh _ c hgl)).2.2.2.1
    · rcases hp0 with rfl | hh
      · exact Or.inr ⟨'?', d :: ds, rfl, by decide⟩
      · rcases hQPc : QP with _ | ⟨e, es⟩
        · exact Or.inr ⟨'?', d :: ds, rfl, by decide⟩
        · rw [hQPc] at hh
          simp only [List.head?_cons, Option.some.injEq] at hh
          refine Or.inr ⟨e, es ++ '?' :: d :: ds, rfl, ?_⟩
          rw [hh]
          decide
    · have hnohash : ∀ c ∈ QP ++ '?' :: d :: ds, ¬(c = '#') := by
        intro c hc
        rcases List.mem_append.1 hc with hm | hm
        · exact (hQPf c hm).1
        · rcases List.mem_cons.1 hm with rfl | hm2
          · decide
          · exact (hQQf c hm2).1
      rw [splitOnFirst_of_not_mem '#' _ hnohash]
      dsimp only
      rw [splitOnFirst_append '?' QP (d :: ds)
        (fun c hc => (hQPf c hc).2.1)]
      dsimp only
      rw [hQPq, hQQq]
      simp [assembleNorm]

/-- C5 (corrected): normalize_url is not idempotent in general, but it
is idempotent on every url whose prefixed form parses with a non-empty
scheme and whose parsed path is empty or starts with a slash, provided
that when both path and query are empty the authority does not end in a
whitespace character.  Scheme-less inputs gain a fresh "://" prefix on
every pass and fragment-bearing urls can expose trailing whitespace
only the second pass strips. -/
theorem claim_C5_normalize_idempotent_amended (u b : String)
    (hs : (pyUrlsplit (preNormalize u.data b.data)).scheme ≠ [])
    (hp : (pyUrlsplit (preNormalize u.data b.data)).path = [] ∨
      (pyUrlsplit (preNormalize u.data b.data)).path.head? = some '/')
    (hw : (pyUrlsplit (preNormalize u.data b.data)).path = [] →
      (pyUrlsplit (preNormalize u.data b.data)).query = [] →
      ((pyUrlsplit (preNormalize u.data b.data)).netloc.getLast?.all
        (fun c => !pyWsChar c)) = true) :
    normalize_url (normalize_url u b) b = normalize_url u b := by
  rcases hu : u.data with _ | ⟨a, as⟩
  · show (⟨normCore (normCore u.data b.data) b.data⟩ : String) =
      ⟨normCore u.data b.data⟩
    rw [hu]
    rfl
  · show (⟨normCore (normCore u.data b.data) b.data⟩ : String) =
      ⟨normCore u.data b.data⟩
    have hne : u.data.isEmpty = false := by
      rw [hu]
      rfl
    have hform : normCore u.data b.data =
        assembleNorm (pyUrlsplit (preNormalize u.data b.data)).scheme
          (pyUrlsplit (preNormalize u.data b.data)).netloc
          (pyQuote (pyUrlsplit (preNormalize u.data b.data)).path
            pathSafe)
          (pyQuote (pyUrlsplit (preNormalize u.data b.data)).query
            querySafe) := by
      unfold normCore
      rw [if_neg (by simp [hne])]
    congr 1
    rw [hform]
    have hsv := pyUrlsplit_scheme_valid (preNormalize u.data b.data) hs
    have hnp := pyUrlsplit_netloc_props (preNormalize u.data b.data)
    have hp0 : pyQuote (pyUrlsplit (preNormalize u.data b.data)).path
          pathSafe = [] ∨
        (pyQuote (pyUrlsplit (preNormalize u.data b.data)).path
          pathSafe).head? = some '/' := by
      rcases hp with hnil | hh
      · rw [hnil]
        exact Or.inl rfl
      · rcases hpc : (pyUrlsplit (preNormalize u.data b.data)).path with
          _ | ⟨e, es⟩
        · rw [hpc] at hh
          simp at hh
        · rw [hpc] at hh
          simp only [List.head?_cons, Option.some.injEq] at hh
          subst hh
          right
          have hq : pyQuote ('/' :: es) pathSafe =
              '/' :: pyQuote es pathSafe := by
            unfold pyQuote
            rw [List.flatMap_cons, if_pos (by decide)]
            rfl
          rw [hq]
          rfl
    have hw2 : pyQuote (pyUrlsplit (preNormalize u.data b.data)).path
          pathSafe = [] →
        pyQuote (pyUrlsplit (preNormalize u.data b.data)).query
          querySafe = [] →
        ∀ c,
          (pyUrlsplit (preNormalize u.data b.data)).netloc.getLast? =
            some c → pyWsChar c = false := by
      intro h1 h2 c hc
      have hpnil : (pyUrlsplit (preNormalize u.data b.data)).path = [] := by
        by_contra hne2
        exact pyQuote_ne_nil _ pathSafe hne2 h1
      have hqnil :
          (pyUrlsplit (preNormalize u.data b.data)).query = [] := by
        by_contra hne2
        exact pyQuote_ne_nil _ querySafe hne2 h2
      have h3 := hw hpnil hqnil
      rw [hc] at h3
      simpa using h3
    exact normCore_fixpoint _ _ _ _ b.data hs hsv.1 hsv.2.1 hsv.2.2
      hnp.1 hnp.2
      (mem_pyQuote_closed _ pathSafe (by decide))
      (mem_pyQuote_closed _ querySafe (by decide))
      (pyQuote_idem _ pathSafe (by decide))
      (pyQuote_idem _ querySafe (by decide))
      hp0 hw2

theorem claim_C5_normalize_idempotent_amended_witness :
    normalize_url (normalize_url "https://example.com/a?b=c"
        "https://example.com") "https://example.com" =
      normalize_url "https://example.com/a?b=c" "https://example.com" :=
  claim_C5_normalize_idempotent_amended "https://example.com/a?b=c"
    "https://example.com" (by decide) (by decide) (by decide)
